import Mathlib

/-!
Verification of the node-tree parser and dot serializer of pg_node2graph.

The definitions below are a shallow embedding of `src/pg_node2graph.cc`
(the `node2dot.cc` variant implements the same parser/serializer with the
same structure; where a claim cites both, the `pg_node2graph.cc` code is
the one embedded).  The character stream is a `List Char`; `getc` returning
`EOF` corresponds to the empty list.  Loops whose iteration count is
bounded by the remaining input length are written with an explicit fuel
argument which the wrapper instantiates with that bound, so that all
definitions compute by kernel reduction.  `Option` results model the C
functions' failure modes: `none` stands for "no value is ever returned"
(a failed `assert` aborting the process, or the un-exitable read loop of
`get_pg_node_name` at end-of-input).
-/

set_option maxRecDepth 100000

namespace PgNode2Graph

/-! ## Definitions -/

/-- The `tag_t` enum of pg_node2graph.cc. -/
inductive tag_t where
  | TagHide
  | TagNode
  | TagList
  | TagItem
deriving DecidableEq, Repr

/-- The `node_t` struct: children (`elems`) are arena indices; nodes are
created by appending to the arena, so an index is also the creation rank. -/
structure node_t where
  tag : tag_t
  name : String
  index : Nat
  suffix : Nat
  edges : List String
  elems : List Nat
deriving DecidableEq, Repr

/-- Default node used by the total arena accessor for out-of-range indices
(never reached on indices the parser actually produces). -/
def dnode : node_t := ⟨tag_t.TagNode, "", 0, 0, [], []⟩

/-- Arena read (dereferencing a `node_t *`). -/
def getNode : List node_t → Nat → node_t
  | [], _ => dnode
  | n :: _, 0 => n
  | _ :: rest, i + 1 => getNode rest i

/-- Arena write (in-place mutation through a `node_t *`). -/
def setNode : List node_t → Nat → node_t → List node_t
  | [], _, _ => []
  | _ :: rest, 0, x => x :: rest
  | n :: rest, i + 1, x => n :: setNode rest i x

/-- `isspace` of the C locale, on the ASCII range the program handles. -/
def isspace_c (c : Char) : Bool :=
  c = ' ' || c = '\t' || c = '\n' || c = Char.ofNat 11 || c = Char.ofNat 12 || c = '\r'

/-- The character `{`. -/
def lbrace : Char := Char.ofNat 123

/-- The character `}`. -/
def rbrace : Char := Char.ofNat 125

/-- `ltrim` of pg_node2graph.cc. -/
def ltrimL (l : List Char) : List Char := l.dropWhile isspace_c

/-- `rtrim` of pg_node2graph.cc. -/
def rtrimL (l : List Char) : List Char := (l.reverse.dropWhile isspace_c).reverse

/-- `trim` of pg_node2graph.cc: `ltrim(rtrim(str))`. -/
def trimC (l : List Char) : List Char := ltrimL (rtrimL l)

/-- The per-character sanitization loop of `get_pg_node_name`:
`"` becomes a space, `<` and `>` become `-`. -/
def sanitizeChar (c : Char) : Char :=
  if c = '"' then ' '
  else if c = '<' || c = '>' then '-'
  else c

/-- The raw-reading loop of `get_pg_node_name`.  It accumulates characters
until one of `:`/`{`/`}` (broken out of and pushed back), or a NUL byte
(the `while ((ch = getc(fp)))` condition, also pushed back).  On `(` it
peeks past whitespace: a following `{` ends the name with `(` and `{`
pushed back; otherwise the `(` joins the name and reading resumes at the
peeked character.  `none` models the C loop never returning: at
end-of-input `getc` yields `EOF` (nonzero), so the loop keeps appending
and never exits.  Fuel is instantiated with the stream length, which the
by-one consumption makes sufficient. -/
def pg_name_raw : Nat → List Char → List Char → Option (List Char × List Char)
  | _, [], _ => none
  | 0, _ :: _, _ => none
  | fuel + 1, c :: cs, acc =>
    if c = Char.ofNat 0 then some (acc, c :: cs)
    else if c = ':' || c = lbrace || c = rbrace then some (acc, c :: cs)
    else if c = '(' then
      match cs.dropWhile isspace_c with
      | d :: rest =>
        if d = lbrace then some (acc, '(' :: d :: rest)
        else pg_name_raw fuel (d :: rest) (acc ++ [c])
      | [] => pg_name_raw fuel [] (acc ++ [c])
    else pg_name_raw fuel cs (acc ++ [c])

/-- Post-processing of `get_pg_node_name`: trim, then replace the dot
reserved characters. -/
def pg_name_post (raw : List Char) : String := String.mk ((trimC raw).map sanitizeChar)

/-- `get_pg_node_name`: read the raw name, leave the stream just before the
delimiter, then sanitize. -/
def get_pg_node_name (s : List Char) : Option (String × List Char) :=
  (pg_name_raw s.length s []).map (fun pr => (pg_name_post pr.1, pr.2))

/-- `get_dot_edge`: renders one edge statement
`node_S:fI -> node_D:fJ[ color];`. -/
def get_dot_edge (ec : Bool) (src_suffix src_index dst_suffix dst_index : Nat)
    (list : Bool) : String :=
  let color := if ec then (if list then " [color=blue]" else " [color=green]") else ""
  "node_" ++ toString src_suffix ++ ":f" ++ toString src_index ++
    " -> node_" ++ toString dst_suffix ++ ":f" ++ toString dst_index ++ color ++ ";"

/-- The local state of `parse_pg_node_tree`: the arena (creation-ordered
heap of nodes), the explicit node stack (head = top), the `node_suffix`
counter and the `prev_is_item` flag. -/
structure PState where
  arena : List node_t
  stack : List Nat
  node_suffix : Nat
  prev_is_item : Bool
deriving DecidableEq, Repr

/-- The state at entry of `parse_pg_node_tree`. -/
def initPState : PState := ⟨[], [], 0, false⟩

/-- The non-root part of the `{` transition, after the `prev_is_item`
reclassification has produced the effective parent `effId`: compute the
edge endpoints (chaining to the previous sibling when the effective parent
is a non-empty list), push the edge and the new child, and push the new
node on the stack. -/
def attachChild (ec : Bool) (st : PState) (arena : List node_t) (effId : Nat)
    (name : String) : PState :=
  let nodeId := arena.length
  let eff := getNode arena effId
  let src : Nat × Nat :=
    if eff.tag = tag_t.TagList then
      match eff.elems.getLast? with
      | some prevId => ((getNode arena prevId).suffix, 0)
      | none => (eff.suffix, eff.index)
    else (eff.suffix, eff.index)
  let edgeinfo := get_dot_edge ec src.1 src.2 st.node_suffix 0 (decide (eff.tag = tag_t.TagList))
  let arena2 := setNode arena effId
    { eff with edges := eff.edges ++ [edgeinfo], elems := eff.elems ++ [nodeId] }
  let newNode : node_t := ⟨tag_t.TagNode, name, eff.elems.length + 1, st.node_suffix, [], []⟩
  ⟨arena2 ++ [newNode], nodeId :: st.stack, st.node_suffix + 1, false⟩

/-- The `{` transition of `parse_pg_node_tree`.  With an empty stack the
new node is the root.  Otherwise, if `prev_is_item`, the trailing item of
the top is reclassified `TagHide`, inherits the top's suffix, and becomes
the effective parent (`none` models the failing `assert` when the top has
no children). -/
def stepOpen (ec : Bool) (st : PState) (name : String) : Option PState :=
  match st.stack with
  | [] =>
    let node : node_t := ⟨tag_t.TagNode, name, 0, st.node_suffix, [], []⟩
    some ⟨st.arena ++ [node], st.arena.length :: st.stack, st.node_suffix + 1, false⟩
  | topId :: _ =>
    if st.prev_is_item then
      match (getNode st.arena topId).elems.getLast? with
      | none => none
      | some effId =>
        let arena1 := setNode st.arena effId
          { getNode st.arena effId with
              tag := tag_t.TagHide, suffix := (getNode st.arena topId).suffix }
        some (attachChild ec st arena1 effId name)
    else
      some (attachChild ec st st.arena topId name)

/-- The `:` transition: a fresh `TagItem` node is appended to the top's
children (`none` models the failing `assert` on an empty stack). -/
def stepItem (st : PState) (name : String) : Option PState :=
  match st.stack with
  | [] => none
  | topId :: _ =>
    let top := getNode st.arena topId
    let node : node_t := ⟨tag_t.TagItem, name, top.elems.length + 1, st.node_suffix, [], []⟩
    let arena1 := setNode st.arena topId { top with elems := top.elems ++ [st.arena.length] }
    some ⟨arena1 ++ [node], st.stack, st.node_suffix + 1, true⟩

/-- The `(` transition: the top's last child becomes `TagList`, inherits
the top's suffix, and is pushed on the stack (`none` models the two
failing `assert`s). -/
def stepLParen (st : PState) : Option PState :=
  match st.stack with
  | [] => none
  | topId :: _ =>
    let top := getNode st.arena topId
    match top.elems.getLast? with
    | none => none
    | some lastId =>
      let arena1 := setNode st.arena lastId
        { getNode st.arena lastId with tag := tag_t.TagList, suffix := top.suffix }
      some ⟨arena1, lastId :: st.stack, st.node_suffix, false⟩

/-- Result of one iteration of the parser's dispatch loop. -/
inductive StepRes where
  | cont (st : PState) (rest : List Char)
  | done (root : Nat) (arena : List node_t) (rest : List Char)
  | fail
deriving DecidableEq, Repr

/-- One iteration of the `while ((ch = getc(fp)) != EOF)` dispatch of
`parse_pg_node_tree`, given the consumed character `c` and the stream
after it.  `done` is the `}` that empties the stack returning the root;
`fail` is a failed `assert` or a name read that never returns; any
non-delimiter character is ignored (leaving `prev_is_item` untouched). -/
def step1 (ec : Bool) (st : PState) (c : Char) (rest : List Char) : StepRes :=
  if c = lbrace then
    match get_pg_node_name rest with
    | none => .fail
    | some (name, rest') =>
      match stepOpen ec st name with
      | none => .fail
      | some st2 => .cont st2 rest'
  else if c = rbrace then
    match st.stack with
    | [] => .fail
    | [t] => .done t st.arena rest
    | _ :: s => .cont ⟨st.arena, s, st.node_suffix, false⟩ rest
  else if c = '(' then
    match stepLParen st with
    | none => .fail
    | some st2 => .cont st2 rest
  else if c = ')' then
    match st.stack with
    | [] => .fail
    | _ :: s => .cont ⟨st.arena, s, st.node_suffix, false⟩ rest
  else if c = ':' then
    match get_pg_node_name rest with
    | none => .fail
    | some (name, rest') =>
      match stepItem st name with
      | none => .fail
      | some st2 => .cont st2 rest'
  else
    .cont st rest

/-- The dispatch loop of `parse_pg_node_tree`.  `none`: end-of-input was
reached without the stack-emptying `}` (the C function returns `NULL`), or
an iteration aborted.  On success the returned triple is the root's arena
index, the arena, and the stream left unconsumed after the final `}`.
Fuel is instantiated with the stream length; every iteration consumes at
least the dispatched character, so that bound suffices. -/
def parseLoop (ec : Bool) : Nat → PState → List Char → Option (Nat × List node_t × List Char)
  | _, _, [] => none
  | 0, _, _ :: _ => none
  | fuel + 1, st, c :: rest =>
    match step1 ec st c rest with
    | .done r a rest' => some (r, a, rest')
    | .fail => none
    | .cont st2 rest2 => parseLoop ec fuel st2 rest2

/-- `parse_pg_node_tree` applied to a whole input stream. -/
def parse_pg_node_tree (ec : Bool) (s : List Char) : Option (Nat × List node_t × List Char) :=
  parseLoop ec s.length initPState s

/-- Occurrence search over character lists. -/
def hasSub : List Char → List Char → Bool
  | _, [] => true
  | [], _ :: _ => false
  | c :: rest, p => p.isPrefixOf (c :: rest) || hasSub rest p

/-- Substring test (`std::string::find(pat) != npos`). -/
def containsSub (s pat : String) : Bool := hasSub s.data pat.data

/-- `name_contains_empty`: the "empty value" marker `--` anywhere in the
name. -/
def name_contains_empty (name : String) : Bool := containsSub name "--"

/-- Sequential concatenation of emitted fragments (the successive
`+=`/`fprintf` calls). -/
def strJoin : List String → String
  | [] => ""
  | x :: l => x ++ strJoin l

/-- Color record of a `node_color_t`. -/
structure node_color_t where
  bgcolor : String
  fontcolor : String
deriving DecidableEq, Repr

/-- `get_dot_node_header`: the opening of a node's HTML-like table,
including the optional border/background/font color attributes looked up
in the color map. -/
def get_dot_node_header (ec : Bool) (cmap : List (String × node_color_t))
    (suffix : Nat) (name : String) : String :=
  let colors : String × String × String :=
    if ec then
      match cmap.find? (fun p => p.1 == name) with
      | some p =>
        let br := if p.2.bgcolor ≠ "" then " color=\"" ++ p.2.bgcolor ++ "\"" else ""
        let bg := if p.2.bgcolor ≠ "" then " bgcolor=\"" ++ p.2.bgcolor ++ "\"" else ""
        let ft := if p.2.fontcolor ≠ "" then " color=\"" ++ p.2.fontcolor ++ "\"" else ""
        (br, bg, ft)
      | none => ("", "", "")
    else ("", "", "")
  "node_" ++ toString suffix ++ " [\n  label=<<table border=\"0\" cellspacing=\"0\"" ++
    colors.1 ++ ">\n    <tr>\n      <td port=\"f0\" border=\"1\"" ++ colors.2.1 ++
    ">\n       <B><font" ++ colors.2.2 ++ ">" ++ name ++ "</font></B>\n      </td>\n    </tr>\n"

/-- The header row of the sub-table built by `format_colnames`. -/
def fcHeaderRow (h : List Char) : String :=
  "      <tr>\n        <td>" ++ String.mk h ++ "</td>\n        <td></td>\n      </tr>\n"

/-- A token row of the sub-table built by `format_colnames`. -/
def fcTokenRow (t : List Char) : String :=
  "      <tr>\n        <td></td>\n        <td align=\"left\">" ++ String.mk t ++
    "</td>\n      </tr>\n"

/-- The trailing-remainder row of the sub-table built by
`format_colnames`. -/
def fcLeftRow (t : List Char) : String :=
  "      <tr>\n        <td>" ++ String.mk t ++ "</td>\n        <td></td>\n      </tr>\n"

/-- The tokenizing `while (tmp.find(' ') != npos)` loop of
`format_colnames`, as the list of rows it appends: one row per
space-separated token, the final token (when the remainder has no further
space) rendered by the trailing `if (!tmp.empty())` block.  Fuel is
instantiated with the remainder length. -/
def fc_rows : Nat → List Char → List String
  | _, [] => []
  | 0, _ :: _ => []
  | fuel + 1, c :: cs =>
    match (c :: cs).findIdx? (fun x => x = ' ') with
    | some pos =>
      fcTokenRow (rtrimL ((c :: cs).take pos)) ::
        fc_rows fuel (ltrimL ((c :: cs).drop (pos + 1)))
    | none => [fcLeftRow (c :: cs)]

/-- `format_colnames`: the exact name `colnames --` is returned unchanged;
otherwise the value is split at the first `(` and expanded into a nested
two-column table, one row per space-separated token. -/
def format_colnames (name : String) : String :=
  if name = "colnames --" then name
  else
    let raw := name.data
    let pos1 := ((raw.findIdx? (fun c => c = '(')).map (· + 1)).getD 0
    let tmp := ltrimL (raw.drop pos1)
    "    \n<table border=\"0\" cellspacing=\"0\"> \n" ++ fcHeaderRow (raw.take pos1) ++
      strJoin (fc_rows tmp.length tmp) ++ "    </table>\n"

/-- `get_dot_node_body`: one field row, with the `colnames` special
case. -/
def get_dot_node_body (suffix : Nat) (name : String) : String :=
  let node_name := if containsSub name "colnames" then format_colnames name else name
  "    <tr><td port=\"f" ++ toString suffix ++ "\" border=\"1\">" ++ node_name ++
    "</td></tr>\n"

/-- `get_dot_node_footer`. -/
def get_dot_node_footer : String := "  </table>>\n];"

/-- The child-row loop of `write_dot_script`'s first pass: one row per
child, skipped when empty-skipping is on and the child's name contains
the empty marker. -/
def blockBody (se : Bool) (arena : List node_t) (elems : List Nat) : String :=
  elems.foldl
    (fun acc cid =>
      if !se || !name_contains_empty (getNode arena cid).name then
        acc ++ get_dot_node_body (getNode arena cid).index (getNode arena cid).name
      else acc)
    ""

/-- The complete `nodeinfo` string built for one visited node in the first
pass. -/
def buildNodeInfo (ec se : Bool) (cmap : List (String × node_color_t))
    (arena : List node_t) (pid : Nat) : String :=
  let p := getNode arena pid
  get_dot_node_header ec cmap p.suffix p.name ++ blockBody se arena p.elems ++
    get_dot_node_footer

/-- The children enqueued by the first pass: only those that themselves
have children. -/
def pass1Children (arena : List node_t) (pid : Nat) : List Nat :=
  (getNode arena pid).elems.filter (fun cid => !(getNode arena cid).elems.isEmpty)

/-- The children enqueued by the second pass: all of them. -/
def pass2Children (arena : List node_t) (pid : Nat) : List Nat :=
  (getNode arena pid).elems

/-- First breadth-first pass of `write_dot_script`: the emitted node-table
blocks, in visit order; a block is emitted only for nodes that are neither
`TagList` nor `TagHide`.  `none` only on fuel exhaustion (impossible for
parser-produced arenas, where children always have larger indices). -/
def pass1 (ec se : Bool) (cmap : List (String × node_color_t)) (arena : List node_t) :
    Nat → List Nat → Option (List String)
  | _, [] => some []
  | 0, _ :: _ => none
  | fuel + 1, pid :: q =>
    (pass1 ec se cmap arena fuel (q ++ pass1Children arena pid)).map
      (fun rest =>
        let p := getNode arena pid
        if p.tag = tag_t.TagList ∨ p.tag = tag_t.TagHide then rest
        else buildNodeInfo ec se cmap arena pid :: rest)

/-- Second breadth-first pass of `write_dot_script`: the emitted edge
lines, in visit order. -/
def pass2 (arena : List node_t) : Nat → List Nat → Option (List String)
  | _, [] => some []
  | 0, _ :: _ => none
  | fuel + 1, pid :: q =>
    (pass2 arena fuel (q ++ pass2Children arena pid)).map
      (fun rest => (getNode arena pid).edges ++ rest)

/-- The fixed graph-level preamble written by `write_dot_script`. -/
def dot_preamble : String :=
  "digraph PGNodeGraph \x7b\nnode [shape=none];\nrankdir=LR;\nsize=\"100000,100000\";\n"

/-- Fuel bound for the serializer's breadth-first traversals; for arenas
whose child links strictly increase it dominates the total number of
visits. -/
def serFuel (arena : List node_t) : Nat := (arena.length + 1) ^ (arena.length + 1)

/-- `write_dot_script`: preamble, then every node block (each followed by
a newline), then every edge line, then the closing brace. -/
def write_dot_script (ec se : Bool) (cmap : List (String × node_color_t))
    (arena : List node_t) (root : Nat) : Option String :=
  match pass1 ec se cmap arena (serFuel arena) [root], pass2 arena (serFuel arena) [root] with
  | some blocks, some edges =>
    some (dot_preamble ++ strJoin (blocks.map (· ++ "\n")) ++
      strJoin (edges.map (· ++ "\n")) ++ "\x7d\n")
  | _, _ => none

/-- Breadth-first discovery order from a work queue, for a given
child-expansion function: pop the front, visit it, enqueue its children at
the back. -/
def bfsOrder (ch : Nat → List Nat) : Nat → List Nat → Option (List Nat)
  | _, [] => some []
  | 0, _ :: _ => none
  | fuel + 1, pid :: q => (bfsOrder ch fuel (q ++ ch pid)).map (fun ord => pid :: ord)

/-- The block the first pass emits for a visited node, `none` for the
invisible kinds. -/
def visibleBlock (ec se : Bool) (cmap : List (String × node_color_t))
    (arena : List node_t) (pid : Nat) : Option String :=
  let p := getNode arena pid
  if p.tag = tag_t.TagList ∨ p.tag = tag_t.TagHide then none
  else some (buildNodeInfo ec se cmap arena pid)

/-- Characters that must be replaced away by the sanitization pass. -/
def badChar (c : Char) : Prop := c = '"' ∨ c = '<' ∨ c = '>'

/-- The number of `{` characters plus the number of `:` characters in a
stream — each such character the parser dispatches on creates exactly one
node. -/
def cntBC : List Char → Nat
  | [] => 0
  | c :: cs => (if c = lbrace then 1 else 0) + (if c = ':' then 1 else 0) + cntBC cs

/-- Structural well-formedness of the arena: every node's child list is
strictly increasing, and every child index is strictly greater than its
parent's and in range.  This holds for parser-produced arenas because a
child is always freshly appended. -/
def ArenaOk (a : List node_t) : Prop :=
  ∀ i, i < a.length →
    (getNode a i).elems.Pairwise (· < ·) ∧
      ∀ j ∈ (getNode a i).elems, i < j ∧ j < a.length

/-- Every stack entry is a valid arena index. -/
def StackOk (st : PState) : Prop := ∀ id ∈ st.stack, id < st.arena.length

/-- Every node name in the arena is sanitized. -/
def NamesOk (a : List node_t) : Prop := ∀ i, ∀ c ∈ (getNode a i).name.data, ¬ badChar c

/-- The parser invariant: well-formed arena, in-range stack, the
`node_suffix` counter equal to the number of created nodes, sanitized
names. -/
def Inv (st : PState) : Prop :=
  ArenaOk st.arena ∧ StackOk st ∧ st.node_suffix = st.arena.length ∧ NamesOk st.arena

/-- `Reaches ec st s st' s'` holds when the parser's dispatch loop, started
in state `st` on stream `s`, is in state `st'` with remaining stream `s'`
at the start of some later (or the same) iteration. -/
inductive Reaches (ec : Bool) : PState → List Char → PState → List Char → Prop
  | refl (st : PState) (s : List Char) : Reaches ec st s st s
  | step {st : PState} {c : Char} {rest : List Char} {st2 : PState} {rest2 : List Char}
      {st' : PState} {s' : List Char} :
      step1 ec st c rest = .cont st2 rest2 →
      Reaches ec st2 rest2 st' s' →
      Reaches ec st (c :: rest) st' s'

/-- The row the first pass contributes for one child, `none` when the row
is skipped. -/
def rowOpt (se : Bool) (arena : List node_t) (cid : Nat) : Option String :=
  if !se || !name_contains_empty (getNode arena cid).name then
    some (get_dot_node_body (getNode arena cid).index (getNode arena cid).name)
  else none

/-- Weight of a queue entry for the breadth-first termination measure. -/
def wWeight (L id : Nat) : Nat := (L + 1) ^ (L - id)

/-- Termination measure of a breadth-first queue. -/
def phiQ (L : Nat) (q : List Nat) : Nat := (q.map (wWeight L)).sum

/-- Number of positions at which `p` occurs in `s`. -/
def countSubL : List Char → List Char → Nat
  | [], _ => 0
  | c :: rest, p => (if p.isPrefixOf (c :: rest) then 1 else 0) + countSubL rest p

/-- Number of occurrences of `pat` in `s`. -/
def countSub (s pat : String) : Nat := countSubL s.data pat.data

/-- The space-separated tokens the `format_colnames` loop walks over:
mirror of `fc_rows` that collects the token texts instead of the rendered
rows. -/
def wordsOf : Nat → List Char → List (List Char)
  | _, [] => []
  | 0, _ :: _ => []
  | fuel + 1, c :: cs =>
    match (c :: cs).findIdx? (fun x => x = ' ') with
    | some pos =>
      rtrimL ((c :: cs).take pos) :: wordsOf fuel (ltrimL ((c :: cs).drop (pos + 1)))
    | none => [c :: cs]

/-- Arena produced by parsing `{A :f {B}}`. -/
def c1Arena : List node_t :=
  [⟨tag_t.TagNode, "A", 0, 0, [], [1]⟩,
   ⟨tag_t.TagHide, "f", 1, 0, ["node_0:f1 -> node_2:f0;"], [2]⟩,
   ⟨tag_t.TagNode, "B", 1, 2, [], []⟩]

/-- The dot script written for the tree of `{A :f {B}}` (coloring and
empty-skipping disabled). -/
def c1Out : String :=
  "digraph PGNodeGraph \x7b\nnode [shape=none];\nrankdir=LR;\nsize=\"100000,100000\";\nnode_0 [\n  label=<<table border=\"0\" cellspacing=\"0\">\n    <tr>\n      <td port=\"f0\" border=\"1\">\n       <B><font>A</font></B>\n      </td>\n    </tr>\n    <tr><td port=\"f1\" border=\"1\">f</td></tr>\n  </table>>\n];\nnode_0:f1 -> node_2:f0;\n\x7d\n"

/-- Parser state just before the second list element `{C` of
`{A :f ({B} {C})}` is consumed: the effective parent (stack top) is the
List-kind node `f` with one child already. -/
def c2St : PState :=
  ⟨[⟨tag_t.TagNode, "A", 0, 0, [], [1]⟩,
    ⟨tag_t.TagList, "f", 1, 0, ["node_0:f1 -> node_2:f0;"], [2]⟩,
    ⟨tag_t.TagNode, "B", 1, 2, [], []⟩], [1, 0], 3, false⟩

/-- The state after `stepOpen` consumes `{C` from `c2St`: the new edge
chains from B (ordinal 2) at slot 0 to C (ordinal 3) at slot 0. -/
def c2St2 : PState :=
  ⟨[⟨tag_t.TagNode, "A", 0, 0, [], [1]⟩,
    ⟨tag_t.TagList, "f", 1, 0, ["node_0:f1 -> node_2:f0;", "node_2:f0 -> node_3:f0;"], [2, 3]⟩,
    ⟨tag_t.TagNode, "B", 1, 2, [], []⟩,
    ⟨tag_t.TagNode, "C", 2, 3, [], []⟩], [3, 1, 0], 4, false⟩

/-- Arena produced by parsing `{A :f {B}}` (for the C5 witness). -/
def c5Arena : List node_t :=
  [⟨tag_t.TagNode, "A", 0, 0, [], [1]⟩,
   ⟨tag_t.TagHide, "f", 1, 0, ["node_0:f1 -> node_2:f0;"], [2]⟩,
   ⟨tag_t.TagNode, "B", 1, 2, [], []⟩]

/-- The state after the first `{A` of `{A}` is consumed. -/
def c6St2 : PState := ⟨[⟨tag_t.TagNode, "A", 0, 0, [], []⟩], [0], 1, false⟩

/-- A small arena for the C7 witness: a root with one item child. -/
def c7Arena : List node_t :=
  [⟨tag_t.TagNode, "R", 0, 0, ["node_0:f0 -> node_9:f9;"], [1]⟩,
   ⟨tag_t.TagItem, "x", 1, 1, [], []⟩]

/-- The dot script written for `c7Arena`. -/
def c7Out : String :=
  "digraph PGNodeGraph \x7b\nnode [shape=none];\nrankdir=LR;\nsize=\"100000,100000\";\nnode_0 [\n  label=<<table border=\"0\" cellspacing=\"0\">\n    <tr>\n      <td port=\"f0\" border=\"1\">\n       <B><font>R</font></B>\n      </td>\n    </tr>\n    <tr><td port=\"f1\" border=\"1\">x</td></tr>\n  </table>>\n];\nnode_0:f0 -> node_9:f9;\n\x7d\n"

/-- Single-child arena whose child label contains `--` without being
exactly `--`. -/
def c10Arena : List node_t := [⟨tag_t.TagItem, "expr --", 1, 1, [], []⟩]

/-! ## Theorems -/

theorem length_setNode (a : List node_t) (i : Nat) (x : node_t) :
    (setNode a i x).length = a.length := by
  induction a generalizing i with
  | nil => rfl
  | cons n rest ih =>
    cases i with
    | zero => rfl
    | succ j => simpa [setNode] using ih j

theorem getNode_setNode_self (a : List node_t) (i : Nat) (x : node_t) (h : i < a.length) :
    getNode (setNode a i x) i = x := by
  induction a generalizing i with
  | nil => simp at h
  | cons n rest ih =>
    cases i with
    | zero => rfl
    | succ j =>
      simp only [setNode, getNode]
      exact ih j (by simpa using h)

theorem getNode_setNode_ne (a : List node_t) (i j : Nat) (x : node_t) (h : i ≠ j) :
    getNode (setNode a i x) j = getNode a j := by
  induction a generalizing i j with
  | nil => rfl
  | cons n rest ih =>
    cases i with
    | zero =>
      cases j with
      | zero => exact absurd rfl h
      | succ k => rfl
    | succ i' =>
      cases j with
      | zero => rfl
      | succ k =>
        simp only [setNode, getNode]
        exact ih i' k (fun hik => h (by simp [hik]))

theorem getNode_append_lt (a b : List node_t) (i : Nat) (h : i < a.length) :
    getNode (a ++ b) i = getNode a i := by
  induction a generalizing i with
  | nil => simp at h
  | cons n rest ih =>
    cases i with
    | zero => rfl
    | succ j =>
      simp only [List.cons_append, getNode]
      exact ih j (by simpa using h)

theorem getNode_append_self (a : List node_t) (x : node_t) :
    getNode (a ++ [x]) a.length = x := by
  induction a with
  | nil => rfl
  | cons n rest ih => simpa [getNode] using ih

theorem getNode_of_le (a : List node_t) (i : Nat) (h : a.length ≤ i) :
    getNode a i = dnode := by
  induction a generalizing i with
  | nil => cases i <;> rfl
  | cons n rest ih =>
    cases i with
    | zero => simp at h
    | succ j => exact ih j (by simpa using h)

theorem stepItem_shape (st : PState) (name : String) (st2 : PState)
    (h : stepItem st name = some st2) :
    ∃ a1 idx, a1.length = st.arena.length ∧
      st2.arena = a1 ++ [⟨tag_t.TagItem, name, idx, st.node_suffix, [], []⟩] ∧
      st2.node_suffix = st.node_suffix + 1 := by
  unfold stepItem at h
  split at h
  · exact absurd h (by simp)
  · injection h with h'
    subst h'
    refine ⟨_, _, ?_, rfl, rfl⟩
    rw [length_setNode]

theorem stepLParen_shape (st : PState) (st2 : PState) (h : stepLParen st = some st2) :
    st2.arena.length = st.arena.length ∧ st2.node_suffix = st.node_suffix := by
  simp only [stepLParen] at h
  split at h
  · exact Option.noConfusion h
  · split at h
    · exact Option.noConfusion h
    · injection h with h'
      subst h'
      exact ⟨length_setNode .., rfl⟩

theorem step1_done_inv (ec : Bool) (st : PState) (c : Char) (rest : List Char)
    (r : Nat) (a : List node_t) (rest' : List Char)
    (h : step1 ec st c rest = .done r a rest') :
    c = rbrace ∧ st.stack = [r] ∧ a = st.arena ∧ rest' = rest := by
  by_cases h1 : c = lbrace
  · unfold step1 at h
    rw [if_pos h1] at h
    split at h
    · exact StepRes.noConfusion h
    · split at h
      · exact StepRes.noConfusion h
      · exact StepRes.noConfusion h
  · by_cases h2 : c = rbrace
    · unfold step1 at h
      rw [if_neg h1, if_pos h2] at h
      split at h
      · exact StepRes.noConfusion h
      · rename_i heq
        injection h with ha hb hc
        subst ha
        subst hb
        subst hc
        exact ⟨h2, heq, rfl, rfl⟩
      · exact StepRes.noConfusion h
    · by_cases h3 : c = '('
      · unfold step1 at h
        rw [if_neg h1, if_neg h2, if_pos h3] at h
        split at h
        · exact StepRes.noConfusion h
        · exact StepRes.noConfusion h
      · by_cases h4 : c = ')'
        · unfold step1 at h
          rw [if_neg h1, if_neg h2, if_neg h3, if_pos h4] at h
          split at h
          · exact StepRes.noConfusion h
          · exact StepRes.noConfusion h
        · by_cases h5 : c = ':'
          · unfold step1 at h
            rw [if_neg h1, if_neg h2, if_neg h3, if_neg h4, if_pos h5] at h
            split at h
            · exact StepRes.noConfusion h
            · split at h
              · exact StepRes.noConfusion h
              · exact StepRes.noConfusion h
          · unfold step1 at h
            rw [if_neg h1, if_neg h2, if_neg h3, if_neg h4, if_neg h5] at h
            exact StepRes.noConfusion h

theorem sanitizeChar_good (c : Char) : ¬ badChar (sanitizeChar c) := by
  unfold sanitizeChar badChar
  split
  · decide
  · split
    · decide
    · rename_i h1 h2
      intro hb
      rcases hb with h | h | h
      · exact h1 (by simp [h])
      · exact h2 (by simp [h])
      · exact h2 (by simp [h])

theorem pg_name_post_good (raw : List Char) : ∀ c ∈ (pg_name_post raw).data, ¬ badChar c := by
  intro c hc
  have : c ∈ (trimC raw).map sanitizeChar := hc
  obtain ⟨c', -, rfl⟩ := List.mem_map.mp this
  exact sanitizeChar_good c'

theorem cntBC_dropWhile_spaces (cs : List Char) :
    cntBC (cs.dropWhile isspace_c) = cntBC cs := by
  induction cs with
  | nil => rfl
  | cons x xs ih =>
    by_cases hx : isspace_c x
    · have h1 : ¬ x = lbrace := by
        intro he
        subst he
        revert hx
        decide
      have h2 : ¬ x = ':' := by
        intro he
        subst he
        revert hx
        decide
      rw [List.dropWhile_cons, if_pos hx, ih]
      simp only [cntBC, if_neg h1, if_neg h2]
      omega
    · rw [List.dropWhile_cons, if_neg hx]

theorem length_dropWhile_le_c (cs : List Char) :
    (cs.dropWhile isspace_c).length ≤ cs.length := by
  induction cs with
  | nil => simp
  | cons x xs ih =>
    by_cases hx : isspace_c x
    · rw [List.dropWhile_cons, if_pos hx]
      simp only [List.length_cons]
      omega
    · rw [List.dropWhile_cons, if_neg hx]

theorem pg_name_raw_rest (fuel : Nat) (s acc raw rest : List Char)
    (h : pg_name_raw fuel s acc = some (raw, rest)) :
    rest.length ≤ s.length ∧ cntBC rest = cntBC s := by
  induction fuel generalizing s acc with
  | zero => cases s <;> simp [pg_name_raw] at h
  | succ fuel ih =>
    cases s with
    | nil => simp [pg_name_raw] at h
    | cons c cs =>
      rw [pg_name_raw] at h
      by_cases h0 : c = Char.ofNat 0
      · rw [if_pos h0, Option.some.injEq, Prod.mk.injEq] at h
        rw [← h.2]
        exact ⟨le_rfl, rfl⟩
      · rw [if_neg h0] at h
        by_cases hd : (c = ':' || c = lbrace || c = rbrace) = true
        · rw [if_pos hd, Option.some.injEq, Prod.mk.injEq] at h
          rw [← h.2]
          exact ⟨le_rfl, rfl⟩
        · rw [if_neg hd] at h
          have hcl : ¬ c = lbrace := by
            intro he
            exact hd (by simp [he])
          have hcc : ¬ c = ':' := by
            intro he
            exact hd (by simp [he])
          by_cases hp : c = '('
          · subst hp
            rw [if_pos rfl] at h
            have hA := cntBC_dropWhile_spaces cs
            have hB := length_dropWhile_le_c cs
            cases hdw : cs.dropWhile isspace_c with
            | nil =>
              rw [hdw] at h
              simp [pg_name_raw] at h
            | cons d rest' =>
              rw [hdw] at h
              rw [hdw] at hA hB
              replace h : (if d = lbrace then some (acc, '(' :: d :: rest')
                  else pg_name_raw fuel (d :: rest') (acc ++ ['('])) = some (raw, rest) := h
              by_cases hdl : d = lbrace
              · rw [if_pos hdl, Option.some.injEq, Prod.mk.injEq] at h
                rw [← h.2]
                refine ⟨?_, ?_⟩
                · simp only [List.length_cons] at hB ⊢
                  omega
                · simp only [cntBC, if_neg hcl, if_neg hcc, ← hA]
              · rw [if_neg hdl] at h
                have hi := ih (d :: rest') (acc ++ ['(']) h
                refine ⟨?_, ?_⟩
                · simp only [List.length_cons] at hB hi ⊢
                  omega
                · rw [hi.2, hA]
                  simp only [cntBC, if_neg hcl, if_neg hcc]
                  omega
          · rw [if_neg hp] at h
            have hi := ih cs (acc ++ [c]) h
            refine ⟨?_, ?_⟩
            · simp only [List.length_cons]
              omega
            · rw [hi.2]
              simp only [cntBC, if_neg hcl, if_neg hcc]
              omega

theorem mem_dropWhile_imp_mem {x : Char} {l : List Char} {p : Char → Bool}
    (h : x ∈ l.dropWhile p) : x ∈ l := by
  induction l with
  | nil => simp at h
  | cons y ys ih =>
    rw [List.dropWhile_cons] at h
    by_cases hy : p y
    · rw [if_pos hy] at h
      exact List.mem_cons_of_mem y (ih h)
    · rw [if_neg hy] at h
      exact h

theorem stepOpen_shape (ec : Bool) (st : PState) (name : String) (st2 : PState)
    (h : stepOpen ec st name = some st2) :
    ∃ a1 idx, a1.length = st.arena.length ∧
      st2.arena = a1 ++ [⟨tag_t.TagNode, name, idx, st.node_suffix, [], []⟩] ∧
      st2.node_suffix = st.node_suffix + 1 := by
  unfold stepOpen at h
  split at h
  · injection h with h'
    subst h'
    exact ⟨st.arena, 0, rfl, rfl, rfl⟩
  · rename_i topId tl
    split at h
    · split at h
      · exact absurd h (by simp)
      · rename_i effId heff
        injection h with h'
        subst h'
        refine ⟨_, _, ?_, rfl, rfl⟩
        rw [length_setNode, length_setNode]
    · injection h with h'
      subst h'
      refine ⟨_, _, ?_, rfl, rfl⟩
      rw [length_setNode]

/-- A stream with none of `:`, `{`, `}` and no NUL byte: reading a name
from it never returns (the C loop has no exit). -/
theorem pg_name_raw_none (fuel : Nat) (s acc : List Char)
    (h : ∀ c ∈ s, ¬(c = ':' ∨ c = lbrace ∨ c = rbrace ∨ c = Char.ofNat 0)) :
    pg_name_raw fuel s acc = none := by
  induction fuel generalizing s acc with
  | zero => cases s <;> rfl
  | succ fuel ih =>
    cases s with
    | nil => rfl
    | cons c cs =>
      have hc := h c (List.mem_cons_self c cs)
      rw [pg_name_raw]
      rw [if_neg (fun he => hc (Or.inr (Or.inr (Or.inr he))))]
      rw [if_neg (by
        intro hb
        rcases Bool.or_eq_true_iff.mp hb with hb' | hb'
        · rcases Bool.or_eq_true_iff.mp hb' with hb'' | hb''
          · exact hc (Or.inl (by simpa using hb''))
          · exact hc (Or.inr (Or.inl (by simpa using hb'')))
        · exact hc (Or.inr (Or.inr (Or.inl (by simpa using hb')))))]
      by_cases hp : c = '('
      · rw [if_pos hp]
        cases hdw : cs.dropWhile isspace_c with
        | nil => exact ih [] (acc ++ [c]) (by intro x hx; simp at hx)
        | cons d rest' =>
          have hdmem : d ∈ cs := mem_dropWhile_imp_mem (by rw [hdw]; exact List.mem_cons_self d rest')
          have hdn := h d (List.mem_cons_of_mem c hdmem)
          show (if d = lbrace then some (acc, '(' :: d :: rest')
              else pg_name_raw fuel (d :: rest') (acc ++ [c])) = none
          rw [if_neg (fun he => hdn (Or.inr (Or.inl he)))]
          refine ih (d :: rest') (acc ++ [c]) ?_
          intro x hx
          rcases List.mem_cons.mp hx with rfl | hx'
          · exact hdn
          · have : x ∈ cs := mem_dropWhile_imp_mem (by rw [hdw]; exact List.mem_cons_of_mem d hx')
            exact h x (List.mem_cons_of_mem c this)
      · rw [if_neg hp]
        exact ih cs (acc ++ [c]) (fun x hx => h x (List.mem_cons_of_mem c hx))

/-- `get_pg_node_name` on a stream exhausted before any structural
delimiter (and containing no NUL): no name is ever returned. -/
theorem get_pg_node_name_none (s : List Char)
    (h : ∀ c ∈ s, ¬(c = ':' ∨ c = lbrace ∨ c = rbrace ∨ c = Char.ofNat 0)) :
    get_pg_node_name s = none := by
  unfold get_pg_node_name
  rw [pg_name_raw_none s.length s [] h]
  rfl

theorem get_pg_node_name_some_inv (s : List Char) (name : String) (rest : List Char)
    (h : get_pg_node_name s = some (name, rest)) :
    ∃ raw, pg_name_raw s.length s [] = some (raw, rest) ∧ name = pg_name_post raw := by
  unfold get_pg_node_name at h
  cases heq : pg_name_raw s.length s [] with
  | none => rw [heq] at h; simp at h
  | some pr =>
    obtain ⟨raw0, rest0⟩ := pr
    rw [heq] at h
    simp only [Option.map_some', Option.some.injEq, Prod.mk.injEq] at h
    obtain ⟨h1, h2⟩ := h
    subst h2
    exact ⟨raw0, rfl, h1.symm⟩

theorem get_pg_node_name_rest (s : List Char) (name : String) (rest : List Char)
    (h : get_pg_node_name s = some (name, rest)) :
    rest.length ≤ s.length ∧ cntBC rest = cntBC s := by
  obtain ⟨raw, hraw, -⟩ := get_pg_node_name_some_inv s name rest h
  exact pg_name_raw_rest s.length s [] raw rest hraw

theorem get_pg_node_name_good (s : List Char) (name : String) (rest : List Char)
    (h : get_pg_node_name s = some (name, rest)) : ∀ c ∈ name.data, ¬ badChar c := by
  obtain ⟨raw, -, hpost⟩ := get_pg_node_name_some_inv s name rest h
  rw [hpost]
  exact pg_name_post_good raw

theorem step1_cont_facts (ec : Bool) (st : PState) (c : Char) (rest : List Char)
    (st2 : PState) (rest2 : List Char) (h : step1 ec st c rest = .cont st2 rest2) :
    rest2.length ≤ rest.length ∧
      st2.arena.length + cntBC rest2 = st.arena.length + cntBC (c :: rest) := by
  by_cases h1 : c = lbrace
  · unfold step1 at h
    rw [if_pos h1] at h
    split at h
    · exact StepRes.noConfusion h
    · rename_i name rest' heqname
      split at h
      · exact StepRes.noConfusion h
      · rename_i st' hopen
        injection h with ha hb
        subst ha
        subst hb
        obtain ⟨hle, hcnt⟩ := get_pg_node_name_rest rest name rest' heqname
        obtain ⟨a1, idx, hlen, harena, -⟩ := stepOpen_shape ec st name st' hopen
        subst h1
        have hl2 : st'.arena.length = st.arena.length + 1 := by
          rw [harena, List.length_append, List.length_cons, hlen]
          rfl
        refine ⟨hle, ?_⟩
        rw [hl2, hcnt]
        simp only [cntBC, if_pos rfl, if_true, if_neg (show ¬ lbrace = ':' by decide)]
        omega
  · by_cases h2 : c = rbrace
    · unfold step1 at h
      rw [if_neg h1, if_pos h2] at h
      split at h
      · exact StepRes.noConfusion h
      · exact StepRes.noConfusion h
      · injection h with ha hb
        subst ha
        subst hb
        subst h2
        refine ⟨le_rfl, ?_⟩
        dsimp only
        simp only [cntBC, if_neg (show ¬ rbrace = lbrace by decide),
          if_neg (show ¬ rbrace = ':' by decide)]
        omega
    · by_cases h3 : c = '('
      · unfold step1 at h
        rw [if_neg h1, if_neg h2, if_pos h3] at h
        split at h
        · exact StepRes.noConfusion h
        · rename_i st' hlp
          injection h with ha hb
          subst ha
          subst hb
          subst h3
          obtain ⟨hlen, -⟩ := stepLParen_shape st st' hlp
          refine ⟨le_rfl, ?_⟩
          rw [hlen]
          simp only [cntBC, if_neg (show ¬ ('(' : Char) = lbrace by decide),
            if_neg (show ¬ ('(' : Char) = ':' by decide)]
          omega
      · by_cases h4 : c = ')'
        · unfold step1 at h
          rw [if_neg h1, if_neg h2, if_neg h3, if_pos h4] at h
          split at h
          · exact StepRes.noConfusion h
          · injection h with ha hb
            subst ha
            subst hb
            subst h4
            refine ⟨le_rfl, ?_⟩
            dsimp only
            simp only [cntBC, if_neg (show ¬ (')' : Char) = lbrace by decide),
              if_neg (show ¬ (')' : Char) = ':' by decide)]
            omega
        · by_cases h5 : c = ':'
          · unfold step1 at h
            rw [if_neg h1, if_neg h2, if_neg h3, if_neg h4, if_pos h5] at h
            split at h
            · exact StepRes.noConfusion h
            · rename_i name rest' heqname
              split at h
              · exact StepRes.noConfusion h
              · rename_i st' hitem
                injection h with ha hb
                subst ha
                subst hb
                obtain ⟨hle, hcnt⟩ := get_pg_node_name_rest rest name rest' heqname
                obtain ⟨a1, idx, hlen, harena, -⟩ := stepItem_shape st name st' hitem
                subst h5
                have hl2 : st'.arena.length = st.arena.length + 1 := by
                  rw [harena, List.length_append, List.length_cons, hlen]
                  rfl
                refine ⟨hle, ?_⟩
                rw [hl2, hcnt]
                simp only [cntBC, if_neg (show ¬ (':' : Char) = lbrace by decide), if_pos rfl, if_true]
                omega
          · unfold step1 at h
            rw [if_neg h1, if_neg h2, if_neg h3, if_neg h4, if_neg h5] at h
            injection h with ha hb
            subst ha
            subst hb
            refine ⟨le_rfl, ?_⟩
            simp only [cntBC, if_neg h1, if_neg h5]
            omega

theorem inv_init : Inv initPState := by
  refine ⟨?_, ?_, rfl, ?_⟩
  · intro i hi
    simp [initPState] at hi
  · intro id hid
    simp [initPState] at hid
  · intro i c hc
    have hd : getNode initPState.arena i = dnode := by cases i <;> rfl
    rw [hd] at hc
    simp [dnode] at hc

theorem setNode_oob (a : List node_t) (i : Nat) (x : node_t) (h : a.length ≤ i) :
    setNode a i x = a := by
  induction a generalizing i with
  | nil => rfl
  | cons n rest ih =>
    cases i with
    | zero => simp at h
    | succ j =>
      simp only [setNode, List.cons.injEq, true_and]
      exact ih j (by simpa using h)

theorem getLast?_mem_c {l : List Nat} {x : Nat} (h : l.getLast? = some x) : x ∈ l := by
  induction l with
  | nil => simp at h
  | cons y ys ih =>
    cases ys with
    | nil =>
      simp only [List.getLast?_singleton, Option.some.injEq] at h
      simp [h]
    | cons z zs =>
      rw [List.getLast?_cons_cons] at h
      exact List.mem_cons_of_mem y (ih h)

theorem arenaOk_append_leaf (a : List node_t) (nd : node_t) (h : ArenaOk a)
    (hnd : nd.elems = []) : ArenaOk (a ++ [nd]) := by
  intro i hi
  rw [List.length_append, List.length_cons, List.length_nil] at hi
  by_cases hlt : i < a.length
  · rw [getNode_append_lt a [nd] i hlt]
    obtain ⟨hp, hb⟩ := h i hlt
    refine ⟨hp, fun j hj => ?_⟩
    obtain ⟨h1, h2⟩ := hb j hj
    rw [List.length_append, List.length_cons, List.length_nil]
    omega
  · have : i = a.length := by omega
    subst this
    rw [getNode_append_self a nd, hnd]
    exact ⟨List.Pairwise.nil, fun j hj => absurd hj (List.not_mem_nil j)⟩

theorem arenaOk_attach (a : List node_t) (e : Nat) (ne nd : node_t) (h : ArenaOk a)
    (he : e < a.length) (hne : ne.elems = (getNode a e).elems ++ [a.length])
    (hnd : nd.elems = []) : ArenaOk (setNode a e ne ++ [nd]) := by
  intro i hi
  have hlen2 : (setNode a e ne ++ [nd]).length = a.length + 1 := by
    rw [List.length_append, length_setNode, List.length_cons, List.length_nil]
  rw [hlen2] at hi ⊢
  have hsetlen : (setNode a e ne).length = a.length := length_setNode ..
  by_cases hie : i = e
  · subst hie
    rw [getNode_append_lt _ [nd] i (by omega), getNode_setNode_self a i ne he, hne]
    obtain ⟨hp, hb⟩ := h i he
    constructor
    · rw [List.pairwise_append]
      refine ⟨hp, List.pairwise_singleton _ _, fun x hx y hy => ?_⟩
      rw [List.mem_singleton] at hy
      subst hy
      exact (hb x hx).2
    · intro j hj
      rcases List.mem_append.mp hj with hj1 | hj2
      · obtain ⟨h1, h2⟩ := hb j hj1
        omega
      · rw [List.mem_singleton] at hj2
        subst hj2
        omega
  · by_cases hlt : i < a.length
    · rw [getNode_append_lt _ [nd] i (by omega), getNode_setNode_ne a e i ne (fun hh => hie hh.symm)]
      obtain ⟨hp, hb⟩ := h i hlt
      refine ⟨hp, fun j hj => ?_⟩
      obtain ⟨h1, h2⟩ := hb j hj
      omega
    · have : i = a.length := by omega
      subst this
      rw [← hsetlen, getNode_append_self (setNode a e ne) nd, hnd]
      exact ⟨List.Pairwise.nil, fun j hj => absurd hj (List.not_mem_nil j)⟩

theorem arenaOk_set_keep_elems (a : List node_t) (e : Nat) (ne : node_t) (h : ArenaOk a)
    (hne : ne.elems = (getNode a e).elems) : ArenaOk (setNode a e ne) := by
  intro i hi
  rw [length_setNode] at hi
  by_cases hie : i = e
  · subst hie
    rw [getNode_setNode_self a i ne hi, hne]
    obtain ⟨hp, hb⟩ := h i hi
    refine ⟨hp, fun j hj => ?_⟩
    obtain ⟨h1, h2⟩ := hb j hj
    rw [length_setNode]
    exact ⟨h1, h2⟩
  · rw [getNode_setNode_ne a e i ne (fun hh => hie hh.symm)]
    obtain ⟨hp, hb⟩ := h i hi
    refine ⟨hp, fun j hj => ?_⟩
    obtain ⟨h1, h2⟩ := hb j hj
    rw [length_setNode]
    exact ⟨h1, h2⟩

theorem namesOk_set (a : List node_t) (e : Nat) (ne : node_t) (h : NamesOk a)
    (hname : ∀ c ∈ ne.name.data, ¬ badChar c) : NamesOk (setNode a e ne) := by
  intro i c hc
  by_cases hie : i = e
  · subst hie
    by_cases hlt : i < a.length
    · rw [getNode_setNode_self a i ne hlt] at hc
      exact hname c hc
    · rw [setNode_oob a i ne (by omega)] at hc
      exact h i c hc
  · rw [getNode_setNode_ne a e i ne (fun hh => hie hh.symm)] at hc
    exact h i c hc

theorem namesOk_append (a : List node_t) (nd : node_t) (h : NamesOk a)
    (hname : ∀ c ∈ nd.name.data, ¬ badChar c) : NamesOk (a ++ [nd]) := by
  intro i c hc
  by_cases hlt : i < a.length
  · rw [getNode_append_lt a [nd] i hlt] at hc
    exact h i c hc
  · by_cases hie : i = a.length
    · subst hie
      rw [getNode_append_self a nd] at hc
      exact hname c hc
    · rw [getNode_of_le (a ++ [nd]) i (by
        rw [List.length_append, List.length_cons, List.length_nil]
        omega)] at hc
      simp [dnode] at hc

theorem inv_attachChild (ec : Bool) (st : PState) (arena : List node_t) (effId : Nat)
    (name : String) (hok : ArenaOk arena) (hnames : NamesOk arena)
    (heff : effId < arena.length) (hstack : ∀ id ∈ st.stack, id < arena.length)
    (hsuffix : st.node_suffix = arena.length) (hgood : ∀ c ∈ name.data, ¬ badChar c) :
    Inv (attachChild ec st arena effId name) := by
  unfold attachChild
  refine ⟨?_, ?_, ?_, ?_⟩
  · exact arenaOk_attach arena effId _ _ hok heff rfl rfl
  · intro id hid
    simp only [List.length_append, length_setNode, List.length_cons, List.length_nil]
    rcases List.mem_cons.mp hid with rfl | hmem
    · omega
    · have := hstack id hmem
      omega
  · simp only [List.length_append, length_setNode, List.length_cons, List.length_nil]
    omega
  · exact namesOk_append _ _ (namesOk_set _ _ _ hnames (hnames effId)) hgood

theorem inv_stepOpen (ec : Bool) (st : PState) (name : String) (st2 : PState)
    (hinv : Inv st) (hgood : ∀ c ∈ name.data, ¬ badChar c)
    (h : stepOpen ec st name = some st2) : Inv st2 := by
  obtain ⟨hok, hstack, hsuffix, hnames⟩ := hinv
  unfold stepOpen at h
  split at h
  · rename_i hstk
    injection h with h'
    subst h'
    refine ⟨?_, ?_, ?_, ?_⟩
    · exact arenaOk_append_leaf st.arena _ hok rfl
    · intro id hid
      simp only [List.length_append, List.length_cons, List.length_nil]
      rcases List.mem_cons.mp hid with rfl | hmem
      · omega
      · rw [hstk] at hmem
        simp at hmem
    · simp only [List.length_append, List.length_cons, List.length_nil]
      omega
    · exact namesOk_append _ _ hnames hgood
  · rename_i topId tl hstk
    have htop : topId < st.arena.length := hstack topId (by rw [hstk]; exact List.mem_cons_self ..)
    split at h
    · split at h
      · exact Option.noConfusion h
      · rename_i effId heff
        injection h with h'
        subst h'
        have heffmem := getLast?_mem_c heff
        have heffrange : effId < st.arena.length := ((hok topId htop).2 effId heffmem).2
        have hlen1 : (setNode st.arena effId
            { getNode st.arena effId with
                tag := tag_t.TagHide,
                suffix := (getNode st.arena topId).suffix }).length = st.arena.length :=
          length_setNode ..
        refine inv_attachChild ec st _ effId name ?_ ?_ ?_ ?_ ?_ hgood
        · exact arenaOk_set_keep_elems st.arena effId _ hok rfl
        · exact namesOk_set _ _ _ hnames (hnames effId)
        · rw [hlen1]
          exact heffrange
        · intro id hid
          rw [hlen1]
          exact hstack id hid
        · rw [hlen1]
          exact hsuffix
    · injection h with h'
      subst h'
      exact inv_attachChild ec st st.arena topId name hok hnames htop hstack hsuffix hgood

theorem inv_stepItem (st : PState) (name : String) (st2 : PState)
    (hinv : Inv st) (hgood : ∀ c ∈ name.data, ¬ badChar c)
    (h : stepItem st name = some st2) : Inv st2 := by
  obtain ⟨hok, hstack, hsuffix, hnames⟩ := hinv
  unfold stepItem at h
  split at h
  · exact Option.noConfusion h
  · rename_i topId tl hstk
    have htop : topId < st.arena.length := hstack topId (by rw [hstk]; exact List.mem_cons_self ..)
    injection h with h'
    subst h'
    refine ⟨?_, ?_, ?_, ?_⟩
    · exact arenaOk_attach st.arena topId _ _ hok htop rfl rfl
    · intro id hid
      simp only [List.length_append, length_setNode, List.length_cons, List.length_nil]
      have := hstack id hid
      omega
    · simp only [List.length_append, length_setNode, List.length_cons, List.length_nil]
      omega
    · exact namesOk_append _ _ (namesOk_set _ _ _ hnames (hnames topId)) hgood

theorem inv_stepLParen (st : PState) (st2 : PState) (hinv : Inv st)
    (h : stepLParen st = some st2) : Inv st2 := by
  obtain ⟨hok, hstack, hsuffix, hnames⟩ := hinv
  simp only [stepLParen] at h
  split at h
  · exact Option.noConfusion h
  · rename_i topId tl hstk
    split at h
    · exact Option.noConfusion h
    · rename_i lastId hlast
      have htop : topId < st.arena.length := hstack topId (by rw [hstk]; exact List.mem_cons_self ..)
      have hlastrange : lastId < st.arena.length :=
        ((hok topId htop).2 lastId (getLast?_mem_c hlast)).2
      injection h with h'
      subst h'
      refine ⟨?_, ?_, ?_, ?_⟩
      · exact arenaOk_set_keep_elems st.arena lastId _ hok rfl
      · intro id hid
        rw [length_setNode]
        rcases List.mem_cons.mp hid with rfl | hmem
        · exact hlastrange
        · exact hstack id hmem
      · rw [length_setNode]
        exact hsuffix
      · exact namesOk_set _ _ _ hnames (hnames lastId)

theorem inv_step1 (ec : Bool) (st : PState) (c : Char) (rest : List Char)
    (st2 : PState) (rest2 : List Char) (hinv : Inv st)
    (h : step1 ec st c rest = .cont st2 rest2) : Inv st2 := by
  by_cases h1 : c = lbrace
  · unfold step1 at h
    rw [if_pos h1] at h
    split at h
    · exact StepRes.noConfusion h
    · rename_i name rest' heqname
      split at h
      · exact StepRes.noConfusion h
      · rename_i st' hopen
        injection h with ha hb
        subst ha
        exact inv_stepOpen ec st name st' hinv
          (get_pg_node_name_good rest name rest' heqname) hopen
  · by_cases h2 : c = rbrace
    · unfold step1 at h
      rw [if_neg h1, if_pos h2] at h
      split at h
      · exact StepRes.noConfusion h
      · exact StepRes.noConfusion h
      · rename_i t u hne hstk
        injection h with ha hb
        subst ha
        obtain ⟨hok, hstack, hsuffix, hnames⟩ := hinv
        refine ⟨hok, ?_, hsuffix, hnames⟩
        intro id hid
        exact hstack id (by rw [hstk]; exact List.mem_cons_of_mem t (show id ∈ u from hid))
    · by_cases h3 : c = '('
      · unfold step1 at h
        rw [if_neg h1, if_neg h2, if_pos h3] at h
        split at h
        · exact StepRes.noConfusion h
        · rename_i st' hlp
          injection h with ha hb
          subst ha
          exact inv_stepLParen st st' hinv hlp
      · by_cases h4 : c = ')'
        · unfold step1 at h
          rw [if_neg h1, if_neg h2, if_neg h3, if_pos h4] at h
          split at h
          · exact StepRes.noConfusion h
          · rename_i t u hstk
            injection h with ha hb
            subst ha
            obtain ⟨hok, hstack, hsuffix, hnames⟩ := hinv
            refine ⟨hok, ?_, hsuffix, hnames⟩
            intro id hid
            exact hstack id (by rw [hstk]; exact List.mem_cons_of_mem t (show id ∈ u from hid))
        · by_cases h5 : c = ':'
          · unfold step1 at h
            rw [if_neg h1, if_neg h2, if_neg h3, if_neg h4, if_pos h5] at h
            split at h
            · exact StepRes.noConfusion h
            · rename_i name rest' heqname
              split at h
              · exact StepRes.noConfusion h
              · rename_i st' hitem
                injection h with ha hb
                subst ha
                exact inv_stepItem st name st' hinv
                  (get_pg_node_name_good rest name rest' heqname) hitem
          · unfold step1 at h
            rw [if_neg h1, if_neg h2, if_neg h3, if_neg h4, if_neg h5] at h
            injection h with ha hb
            subst ha
            exact hinv

theorem reaches_inv {ec : Bool} {st : PState} {s : List Char} {st' : PState} {s' : List Char}
    (hr : Reaches ec st s st' s') (h : Inv st) : Inv st' := by
  induction hr with
  | refl => exact h
  | step hstep hr ih => exact ih (inv_step1 _ _ _ _ _ _ h hstep)

theorem reaches_cnt {ec : Bool} {st : PState} {s : List Char} {st' : PState} {s' : List Char}
    (hr : Reaches ec st s st' s') :
    st'.arena.length + cntBC s' = st.arena.length + cntBC s := by
  induction hr with
  | refl => rfl
  | step hstep hr ih =>
    have hfact := (step1_cont_facts _ _ _ _ _ _ hstep).2
    omega

theorem parseLoop_some_reaches (ec : Bool) (fuel : Nat) (st : PState) (s : List Char)
    (out : Nat × List node_t × List Char) (h : parseLoop ec fuel st s = some out) :
    ∃ st', Reaches ec st s st' (rbrace :: out.2.2) ∧
      st'.stack = [out.1] ∧ st'.arena = out.2.1 := by
  induction fuel generalizing st s with
  | zero =>
    cases s with
    | nil => simp [parseLoop] at h
    | cons c rest => simp [parseLoop] at h
  | succ fuel ih =>
    cases s with
    | nil => simp [parseLoop] at h
    | cons c rest =>
      cases hstep : step1 ec st c rest with
      | done r a rest' =>
        replace h : some (r, a, rest') = some out := by
          rw [parseLoop, hstep] at h
          exact h
        injection h with h'
        subst h'
        obtain ⟨hc, hs, ha, hrest⟩ := step1_done_inv ec st c rest r a rest' hstep
        subst hc
        subst hrest
        exact ⟨st, Reaches.refl st _, hs, ha.symm⟩
      | fail =>
        replace h : (none : Option (Nat × List node_t × List Char)) = some out := by
          rw [parseLoop, hstep] at h
          exact h
        exact Option.noConfusion h
      | cont st2 rest2 =>
        replace h : parseLoop ec fuel st2 rest2 = some out := by
          rw [parseLoop, hstep] at h
          exact h
        obtain ⟨st', hr, hs, ha⟩ := ih st2 rest2 h
        exact ⟨st', Reaches.step hstep hr, hs, ha⟩

theorem reaches_parseLoop (ec : Bool) {st : PState} {s : List Char} {st' : PState}
    {t : List Char} (hr : Reaches ec st s st' t) :
    ∀ r s'', t = rbrace :: s'' → st'.stack = [r] →
      ∀ fuel, s.length ≤ fuel → parseLoop ec fuel st s = some (r, st'.arena, s'') := by
  induction hr with
  | refl st0 s0 =>
    intro r s'' ht hs fuel hf
    subst ht
    cases fuel with
    | zero => simp at hf
    | succ f =>
      have hstep : step1 ec st0 rbrace s'' = .done r st0.arena s'' := by
        unfold step1
        rw [if_neg (show ¬ rbrace = lbrace by decide), if_pos rfl, hs]
      rw [parseLoop, hstep]
  | step hstep hr ih =>
    intro r s'' ht hs fuel hf
    subst ht
    cases fuel with
    | zero => simp at hf
    | succ f =>
      rw [parseLoop, hstep]
      have hlen := (step1_cont_facts _ _ _ _ _ _ hstep).1
      simp only [List.length_cons] at hf
      exact ih r s'' rfl hs f (by omega)

theorem string_data_append (a b : String) : (a ++ b).data = a.data ++ b.data := by
  cases a
  cases b
  rfl

theorem string_append_assoc (a b c : String) : (a ++ b) ++ c = a ++ (b ++ c) := by
  cases a
  cases b
  cases c
  exact congrArg String.mk (List.append_assoc ..)

theorem string_append_empty (a : String) : a ++ "" = a := by
  cases a
  exact congrArg String.mk (List.append_nil _)

theorem blockBody_foldl (se : Bool) (arena : List node_t) :
    ∀ (elems : List Nat) (acc : String),
      elems.foldl
        (fun acc cid =>
          if !se || !name_contains_empty (getNode arena cid).name then
            acc ++ get_dot_node_body (getNode arena cid).index (getNode arena cid).name
          else acc)
        acc = acc ++ strJoin (elems.filterMap (rowOpt se arena)) := by
  intro elems
  induction elems with
  | nil =>
    intro acc
    simp only [List.foldl_nil, List.filterMap_nil]
    exact (string_append_empty acc).symm
  | cons cid tl ih =>
    intro acc
    rw [List.foldl_cons, ih, List.filterMap_cons]
    unfold rowOpt
    by_cases hcond : (!se || !name_contains_empty (getNode arena cid).name) = true
    · rw [if_pos hcond, if_pos hcond]
      exact string_append_assoc ..
    · rw [if_neg hcond, if_neg hcond]

theorem blockBody_eq (se : Bool) (arena : List node_t) (elems : List Nat) :
    blockBody se arena elems = strJoin (elems.filterMap (rowOpt se arena)) := by
  unfold blockBody
  rw [blockBody_foldl]
  cases h : strJoin (elems.filterMap (rowOpt se arena))
  exact congrArg String.mk (List.nil_append _).symm

theorem pass1_eq_bfs (ec se : Bool) (cmap : List (String × node_color_t))
    (arena : List node_t) : ∀ (fuel : Nat) (q : List Nat),
    pass1 ec se cmap arena fuel q =
      (bfsOrder (pass1Children arena) fuel q).map
        (fun ord => ord.filterMap (visibleBlock ec se cmap arena)) := by
  intro fuel
  induction fuel with
  | zero =>
    intro q
    cases q <;> rfl
  | succ fuel ih =>
    intro q
    cases q with
    | nil => rfl
    | cons pid q' =>
      show (pass1 ec se cmap arena fuel (q' ++ pass1Children arena pid)).map _ = _
      rw [ih (q' ++ pass1Children arena pid)]
      show _ = ((bfsOrder (pass1Children arena) fuel (q' ++ pass1Children arena pid)).map
        (fun ord => pid :: ord)).map _
      rw [Option.map_map, Option.map_map]
      cases bfsOrder (pass1Children arena) fuel (q' ++ pass1Children arena pid) with
      | none => rfl
      | some ord =>
        simp only [Option.map_some', Option.some.injEq, Function.comp]
        rw [List.filterMap_cons]
        unfold visibleBlock
        by_cases hv : (getNode arena pid).tag = tag_t.TagList ∨ (getNode arena pid).tag = tag_t.TagHide
        · rw [if_pos hv]
          simp only [if_pos hv]
        · rw [if_neg hv]
          simp only [if_neg hv]

theorem pass2_eq_bfs (arena : List node_t) : ∀ (fuel : Nat) (q : List Nat),
    pass2 arena fuel q =
      (bfsOrder (pass2Children arena) fuel q).map
        (fun ord => ord.flatMap (fun id => (getNode arena id).edges)) := by
  intro fuel
  induction fuel with
  | zero =>
    intro q
    cases q <;> rfl
  | succ fuel ih =>
    intro q
    cases q with
    | nil => rfl
    | cons pid q' =>
      show (pass2 arena fuel (q' ++ pass2Children arena pid)).map _ = _
      rw [ih (q' ++ pass2Children arena pid)]
      show _ = ((bfsOrder (pass2Children arena) fuel (q' ++ pass2Children arena pid)).map
        (fun ord => pid :: ord)).map _
      rw [Option.map_map, Option.map_map]
      cases bfsOrder (pass2Children arena) fuel (q' ++ pass2Children arena pid) with
      | none => rfl
      | some ord =>
        simp only [Option.map_some', Option.some.injEq, Function.comp]
        rw [List.flatMap_cons]

/-- Queue-based breadth-first order visits level by level: the whole
current queue is visited first, then the concatenation of its children. -/
theorem bfsOrder_level (ch : Nat → List Nat) :
    ∀ (a : List Nat) (b : List Nat) (fuel : Nat) (out : List Nat),
      bfsOrder ch fuel (a ++ b) = some out →
      ∃ out', bfsOrder ch (fuel - a.length) (b ++ a.flatMap ch) = some out' ∧ out = a ++ out' := by
  intro a
  induction a with
  | nil =>
    intro b fuel out h
    refine ⟨out, ?_, rfl⟩
    simpa using h
  | cons x a' ih =>
    intro b fuel out h
    cases fuel with
    | zero => exact Option.noConfusion h
    | succ f =>
      replace h : (bfsOrder ch f (a' ++ b ++ ch x)).map (fun ord => x :: ord) = some out := h
      cases hbo : bfsOrder ch f (a' ++ b ++ ch x) with
      | none => rw [hbo] at h; exact Option.noConfusion h
      | some out1 =>
        rw [hbo] at h
        injection h with h'
        subst h'
        rw [List.append_assoc] at hbo
        obtain ⟨out'', hbo2, hout1⟩ := ih (b ++ ch x) f out1 hbo
        refine ⟨out'', ?_, ?_⟩
        · rw [show (x :: a').length = a'.length + 1 by rfl]
          rw [show f + 1 - (a'.length + 1) = f - a'.length by omega]
          rw [List.flatMap_cons, ← List.append_assoc]
          exact hbo2
        · rw [hout1]
          rfl

theorem phiQ_append (L : Nat) (a b : List Nat) : phiQ L (a ++ b) = phiQ L a + phiQ L b := by
  unfold phiQ
  rw [List.map_append, List.sum_append]

theorem sum_map_le (f : Nat → Nat) (B : Nat) :
    ∀ l : List Nat, (∀ x ∈ l, f x ≤ B) → (l.map f).sum ≤ l.length * B := by
  intro l
  induction l with
  | nil => intro h; simp
  | cons x xs ih =>
    intro h
    rw [List.map_cons, List.sum_cons, List.length_cons]
    have h1 := h x (List.mem_cons_self ..)
    have h2 := ih (fun y hy => h y (List.mem_cons_of_mem x hy))
    calc f x + (xs.map f).sum ≤ B + xs.length * B := by omega
    _ = (xs.length + 1) * B := by ring

theorem pairwise_lt_length_le (l : List Nat) (L : Nat) (hp : l.Pairwise (· < ·))
    (hb : ∀ x ∈ l, x < L) : l.length ≤ L := by
  have hnd : l.Nodup := hp.imp Nat.ne_of_lt
  have hsub : l.toFinset ⊆ Finset.range L := by
    intro x hx
    rw [Finset.mem_range]
    exact hb x (List.mem_toFinset.mp hx)
  have := Finset.card_le_card hsub
  rw [Finset.card_range, List.toFinset_card_of_nodup hnd] at this
  exact this

theorem phi_children_lt (a : List node_t) (hok : ArenaOk a) (id : Nat)
    (hid : id < a.length) (ch : List Nat) (hsub : ch ⊆ (getNode a id).elems)
    (hpair : ch.Pairwise (· < ·)) : phiQ a.length ch < wWeight a.length id := by
  set L := a.length with hL
  have hbounds : ∀ j ∈ ch, id < j ∧ j < L := fun j hj => (hok id hid).2 j (hsub hj)
  have hlen : ch.length ≤ L := pairwise_lt_length_le ch L hpair (fun x hx => (hbounds x hx).2)
  have hterm : ∀ j ∈ ch, wWeight L j ≤ (L + 1) ^ (L - id - 1) := by
    intro j hj
    obtain ⟨h1, h2⟩ := hbounds j hj
    unfold wWeight
    exact Nat.pow_le_pow_right (by omega) (by omega)
  have hsum : phiQ L ch ≤ ch.length * (L + 1) ^ (L - id - 1) := sum_map_le _ _ ch hterm
  have hlt : ch.length * (L + 1) ^ (L - id - 1) < (L + 1) * (L + 1) ^ (L - id - 1) := by
    have hpow : 0 < (L + 1) ^ (L - id - 1) := Nat.pos_pow_of_pos _ (by omega)
    have : ch.length < L + 1 := by omega
    exact Nat.mul_lt_mul_of_lt_of_le this (le_refl _) hpow
  have heq : (L + 1) * (L + 1) ^ (L - id - 1) = (L + 1) ^ (L - id) := by
    rw [← pow_succ']
    congr 1
    omega
  unfold wWeight
  omega

theorem bfs_fuel_sufficient (arena : List node_t) (hok : ArenaOk arena)
    (ch : Nat → List Nat) (hch_sub : ∀ id, ch id ⊆ (getNode arena id).elems)
    (hch_pair : ∀ id, (ch id).Pairwise (· < ·)) :
    ∀ (fuel : Nat) (q : List Nat), (∀ id ∈ q, id < arena.length) →
      phiQ arena.length q ≤ fuel → (bfsOrder ch fuel q).isSome := by
  intro fuel
  induction fuel with
  | zero =>
    intro q hq hphi
    cases q with
    | nil => rfl
    | cons id q' =>
      exfalso
      have : 0 < wWeight arena.length id := Nat.pos_pow_of_pos _ (by omega)
      have : 0 < phiQ arena.length (id :: q') := by
        unfold phiQ
        rw [List.map_cons, List.sum_cons]
        omega
      omega
  | succ fuel ih =>
    intro q hq hphi
    cases q with
    | nil => rfl
    | cons id q' =>
      have hid : id < arena.length := hq id (List.mem_cons_self ..)
      have hchlt := phi_children_lt arena hok id hid (ch id) (hch_sub id) (hch_pair id)
      have hphi' : phiQ arena.length (q' ++ ch id) ≤ fuel := by
        rw [phiQ_append]
        have : phiQ arena.length (id :: q') = wWeight arena.length id + phiQ arena.length q' := by
          unfold phiQ
          rw [List.map_cons, List.sum_cons]
        omega
      have hq' : ∀ j ∈ q' ++ ch id, j < arena.length := by
        intro j hj
        rcases List.mem_append.mp hj with hj1 | hj2
        · exact hq j (List.mem_cons_of_mem id hj1)
        · exact ((hok id hid).2 j (hch_sub id hj2)).2
      have := ih (q' ++ ch id) hq' hphi'
      show ((bfsOrder ch fuel (q' ++ ch id)).map _).isSome
      cases hbo : bfsOrder ch fuel (q' ++ ch id) with
      | none => rw [hbo] at this; exact absurd this (by simp)
      | some ord => rfl

theorem pass1Children_sub (arena : List node_t) (id : Nat) :
    pass1Children arena id ⊆ (getNode arena id).elems := by
  unfold pass1Children
  exact List.filter_subset' _

theorem pass1Children_pair (arena : List node_t) (hok : ArenaOk arena) (id : Nat) :
    (pass1Children arena id).Pairwise (· < ·) := by
  unfold pass1Children
  by_cases hid : id < arena.length
  · exact List.Pairwise.filter _ (hok id hid).1
  · rw [getNode_of_le arena id (by omega)]
    show (List.filter _ []).Pairwise _
    exact List.Pairwise.nil

theorem pass2Children_pair (arena : List node_t) (hok : ArenaOk arena) (id : Nat) :
    (pass2Children arena id).Pairwise (· < ·) := by
  unfold pass2Children
  by_cases hid : id < arena.length
  · exact (hok id hid).1
  · rw [getNode_of_le arena id (by omega)]
    exact List.Pairwise.nil

theorem serFuel_sufficient (arena : List node_t) (root : Nat) (hroot : root < arena.length) :
    phiQ arena.length [root] ≤ serFuel arena := by
  unfold phiQ serFuel wWeight
  rw [List.map_cons, List.map_nil, List.sum_cons, List.sum_nil]
  have : (arena.length + 1) ^ (arena.length - root) ≤ (arena.length + 1) ^ (arena.length + 1) :=
    Nat.pow_le_pow_right (by omega) (by omega)
  omega

theorem write_dot_script_isSome (ec se : Bool) (cmap : List (String × node_color_t))
    (arena : List node_t) (root : Nat) (hok : ArenaOk arena)
    (hroot : root < arena.length) : (write_dot_script ec se cmap arena root).isSome := by
  have hq : ∀ id ∈ [root], id < arena.length := by
    intro id hid
    rw [List.mem_singleton] at hid
    subst hid
    exact hroot
  have h1 : (bfsOrder (pass1Children arena) (serFuel arena) [root]).isSome :=
    bfs_fuel_sufficient arena hok _ (pass1Children_sub arena) (pass1Children_pair arena hok)
      (serFuel arena) [root] hq (serFuel_sufficient arena root hroot)
  have h2 : (bfsOrder (pass2Children arena) (serFuel arena) [root]).isSome :=
    bfs_fuel_sufficient arena hok _ (fun id => List.Subset.refl _) (pass2Children_pair arena hok)
      (serFuel arena) [root] hq (serFuel_sufficient arena root hroot)
  unfold write_dot_script
  rw [pass1_eq_bfs, pass2_eq_bfs]
  cases hb1 : bfsOrder (pass1Children arena) (serFuel arena) [root] with
  | none => rw [hb1] at h1; exact absurd h1 (by simp)
  | some ord1 =>
    cases hb2 : bfsOrder (pass2Children arena) (serFuel arena) [root] with
    | none => rw [hb2] at h2; exact absurd h2 (by simp)
    | some ord2 => rfl

theorem getLast?_none_c {l : List Nat} (h : l.getLast? = none) : l = [] := by
  induction l with
  | nil => rfl
  | cons x xs ih =>
    cases xs with
    | nil => simp at h
    | cons y ys =>
      rw [List.getLast?_cons_cons] at h
      exact absurd (ih h) (by simp)

theorem getNode_set_append_last (a : List node_t) (e : Nat) (x nd : node_t) :
    getNode (setNode a e x ++ [nd]) a.length = nd := by
  rw [← length_setNode a e x, getNode_append_self]

theorem getNode_set_append_self (a : List node_t) (e : Nat) (x nd : node_t)
    (he : e < a.length) : getNode (setNode a e x ++ [nd]) e = x := by
  rw [getNode_append_lt _ _ e (by rw [length_setNode]; exact he), getNode_setNode_self a e x he]

theorem attachChild_spec (ec : Bool) (st : PState) (arena : List node_t) (effId : Nat)
    (name : String) (heff : effId < arena.length) :
    (getNode (attachChild ec st arena effId name).arena arena.length).suffix
        = st.node_suffix ∧
    (getNode (attachChild ec st arena effId name).arena effId).edges
      = (getNode arena effId).edges ++
        [if (getNode arena effId).tag = tag_t.TagList ∧ (getNode arena effId).elems ≠ [] then
            get_dot_edge ec
              (getNode arena ((getNode arena effId).elems.getLast?.getD 0)).suffix 0
              st.node_suffix 0 true
          else
            get_dot_edge ec (getNode arena effId).suffix (getNode arena effId).index
              st.node_suffix 0 (decide ((getNode arena effId).tag = tag_t.TagList))] := by
  simp only [attachChild]
  constructor
  · rw [getNode_set_append_last]
  · rw [getNode_set_append_self _ _ _ _ heff]
    show (getNode arena effId).edges ++ [_] = (getNode arena effId).edges ++ [_]
    congr 1
    by_cases htag : (getNode arena effId).tag = tag_t.TagList
    · cases hgl : (getNode arena effId).elems.getLast? with
      | none =>
        have hnil := getLast?_none_c hgl
        rw [if_pos htag, if_neg (fun hand => hand.2 hnil)]
      | some prev =>
        have hne : (getNode arena effId).elems ≠ [] := by
          intro hn
          rw [hn] at hgl
          exact Option.noConfusion hgl
        rw [if_pos htag, if_pos (And.intro htag hne), htag]
        rfl
    · rw [if_neg htag, if_neg (fun hand => htag hand.1)]

/-- `format_colnames` emits exactly one value row per token. -/
theorem fc_rows_words (fuel : Nat) : ∀ tmp : List Char,
    (fc_rows fuel tmp).length = (wordsOf fuel tmp).length := by
  induction fuel with
  | zero =>
    intro tmp
    cases tmp <;> rfl
  | succ fuel ih =>
    intro tmp
    cases tmp with
    | nil => rfl
    | cons c cs =>
      cases hidx : (c :: cs).findIdx? (fun x => x = ' ') with
      | none =>
        simp only [fc_rows, wordsOf, hidx]
        rfl
      | some pos =>
        simp only [fc_rows, wordsOf, hidx, List.length_cons]
        rw [ih]

/-- C1 counterexample: for the input `{A :f {B}}` the claim fails on the
code in two places.  The serialized output *does* contain the field row
for `f` (port `f1`, label `f`) inside A's block, although the claim says
that row is absent; and `B`, having no children, is never enqueued by the
first pass, so no `node_2` block is emitted, although the claim says B
gets a separate visible node block. -/
theorem c1_counterexample :
    parse_pg_node_tree false "\x7bA :f \x7bB\x7d\x7d".data = some (0, c1Arena, []) ∧
    write_dot_script false false [] c1Arena 0 = some c1Out ∧
    containsSub c1Out "<tr><td port=\"f1\" border=\"1\">f</td></tr>" = true ∧
    containsSub c1Out "node_2 [" = false := by
  refine ⟨by decide, by decide, by decide, by decide⟩

/-- C1 amended: for input `{A :f {B}}` (coloring and empty-skipping
disabled) the serialized graph contains exactly one visible node block —
A's, under ordinal 0 — in which the field row for `f` is present at port
`f1`; the `f` item is reclassified `Suppressed` and gets no standalone
block; `B`, being childless, also gets no block of its own; and there is
exactly one edge, from A's ordinal at `f`'s slot to B's ordinal at slot
0 (`node_0:f1 -> node_2:f0;`). -/
theorem c1_amended :
    parse_pg_node_tree false "\x7bA :f \x7bB\x7d\x7d".data = some (0, c1Arena, []) ∧
    (getNode c1Arena 1).tag = tag_t.TagHide ∧
    write_dot_script false false [] c1Arena 0 = some c1Out ∧
    countSub c1Out "[\n  label=" = 1 ∧
    containsSub c1Out "<tr><td port=\"f1\" border=\"1\">f</td></tr>" = true ∧
    countSub c1Out " -> " = 1 ∧
    containsSub c1Out "node_0:f1 -> node_2:f0;" = true ∧
    containsSub c1Out "node_1 [" = false ∧
    containsSub c1Out "node_2 [" = false := by
  refine ⟨by decide, by decide, by decide, by decide, by decide, by decide, by decide,
    by decide, by decide⟩

/-- C2: when `{` is consumed with a nonempty stack, the `prev_is_item`
reclassification determines the effective parent `effId`; the edge pushed
onto the effective parent goes to the new node's ordinal at slot 0, and
its source is the previous sibling's ordinal at slot 0 when the effective
parent is List-kind with at least one child, and otherwise the effective
parent's own ordinal and slot. -/
theorem c2_open_edge_source (ec : Bool) (st : PState) (topId : Nat) (tl : List Nat)
    (name : String) (st2 : PState) (hstk : st.stack = topId :: tl)
    (htop : topId < st.arena.length) (hok : ArenaOk st.arena)
    (h : stepOpen ec st name = some st2) :
    ∃ effId arena1,
      ((st.prev_is_item = false ∧ effId = topId ∧ arena1 = st.arena) ∨
        (st.prev_is_item = true ∧
          (getNode st.arena topId).elems.getLast? = some effId ∧
          arena1 = setNode st.arena effId
            { getNode st.arena effId with
                tag := tag_t.TagHide, suffix := (getNode st.arena topId).suffix })) ∧
      (getNode st2.arena st.arena.length).suffix = st.node_suffix ∧
      (getNode st2.arena effId).edges = (getNode arena1 effId).edges ++
        [if (getNode arena1 effId).tag = tag_t.TagList ∧ (getNode arena1 effId).elems ≠ [] then
            get_dot_edge ec
              (getNode arena1 ((getNode arena1 effId).elems.getLast?.getD 0)).suffix 0
              st.node_suffix 0 true
          else
            get_dot_edge ec (getNode arena1 effId).suffix (getNode arena1 effId).index
              st.node_suffix 0 (decide ((getNode arena1 effId).tag = tag_t.TagList))] := by
  unfold stepOpen at h
  rw [hstk] at h
  replace h : (if st.prev_is_item then
      match (getNode st.arena topId).elems.getLast? with
      | none => none
      | some effId =>
        some (attachChild ec st
          (setNode st.arena effId
            { getNode st.arena effId with
                tag := tag_t.TagHide, suffix := (getNode st.arena topId).suffix })
          effId name)
    else some (attachChild ec st st.arena topId name)) = some st2 := h
  by_cases hprev : st.prev_is_item = true
  · rw [if_pos hprev] at h
    cases hgl : (getNode st.arena topId).elems.getLast? with
    | none =>
      rw [hgl] at h
      exact Option.noConfusion h
    | some effId =>
      rw [hgl] at h
      injection h with h'
      subst h'
      have heffrange : effId < st.arena.length :=
        ((hok topId htop).2 effId (getLast?_mem_c hgl)).2
      have hlen1 : (setNode st.arena effId
          { getNode st.arena effId with
              tag := tag_t.TagHide, suffix := (getNode st.arena topId).suffix }).length
          = st.arena.length := length_setNode ..
      have hspec := attachChild_spec ec st
        (setNode st.arena effId
          { getNode st.arena effId with
              tag := tag_t.TagHide, suffix := (getNode st.arena topId).suffix })
        effId name (by rw [hlen1]; exact heffrange)
      refine ⟨effId, _, Or.inr ⟨hprev, rfl, rfl⟩, ?_, hspec.2⟩
      rw [← hlen1]
      exact hspec.1
  · rw [if_neg hprev] at h
    injection h with h'
    subst h'
    have hspec := attachChild_spec ec st st.arena topId name htop
    exact ⟨topId, st.arena, Or.inl ⟨(Bool.not_eq_true _).mp hprev, rfl, rfl⟩, hspec.1, hspec.2⟩

/-- Witness for C2 at the concrete list-chaining state of
`{A :f ({B} {C})}`. -/
theorem c2_witness :
    ∃ effId arena1,
      ((c2St.prev_is_item = false ∧ effId = 1 ∧ arena1 = c2St.arena) ∨
        (c2St.prev_is_item = true ∧
          (getNode c2St.arena 1).elems.getLast? = some effId ∧
          arena1 = setNode c2St.arena effId
            { getNode c2St.arena effId with
                tag := tag_t.TagHide, suffix := (getNode c2St.arena 1).suffix })) ∧
      (getNode c2St2.arena c2St.arena.length).suffix = c2St.node_suffix ∧
      (getNode c2St2.arena effId).edges = (getNode arena1 effId).edges ++
        [if (getNode arena1 effId).tag = tag_t.TagList ∧ (getNode arena1 effId).elems ≠ [] then
            get_dot_edge false
              (getNode arena1 ((getNode arena1 effId).elems.getLast?.getD 0)).suffix 0
              c2St.node_suffix 0 true
          else
            get_dot_edge false (getNode arena1 effId).suffix (getNode arena1 effId).index
              c2St.node_suffix 0 (decide ((getNode arena1 effId).tag = tag_t.TagList))] :=
  c2_open_edge_source false c2St 1 [0] "C" c2St2 rfl (by decide)
    (by unfold ArenaOk; decide) (by decide)

/-- C3: the parser returns a root exactly when the loop reaches, before
end-of-input, a state whose next character is the `}` that empties the
stack (a singleton stack).  In particular nothing is returned at
end-of-input with a nonempty stack: no reachable configuration has the
empty stream equal to `}` followed by anything, so `parse_pg_node_tree`
yields `none` there — no partial tree. -/
theorem c3_success_iff (ec : Bool) (s : List Char) (out : Nat × List node_t × List Char) :
    parse_pg_node_tree ec s = some out ↔
      ∃ st', Reaches ec initPState s st' (rbrace :: out.2.2) ∧
        st'.stack = [out.1] ∧ st'.arena = out.2.1 := by
  constructor
  · intro h
    exact parseLoop_some_reaches ec s.length initPState s out h
  · rintro ⟨st', hr, hs, ha⟩
    have hres := reaches_parseLoop ec hr out.1 out.2.2 rfl hs s.length le_rfl
    rw [ha] at hres
    exact hres

/-- Witness for C3: the parse of `{A}` succeeds, so the loop reaches the
emptying `}` with the singleton stack. -/
theorem c3_witness :
    ∃ st', Reaches false initPState "\x7bA\x7d".data st' (rbrace :: ([] : List Char)) ∧
      st'.stack = [0] ∧ st'.arena = [⟨tag_t.TagNode, "A", 0, 0, [], []⟩] :=
  (c3_success_iff false "\x7bA\x7d".data (0, [⟨tag_t.TagNode, "A", 0, 0, [], []⟩], [])).mp
    (by decide)

/-- C4: if the name reader is invoked on a stream that runs out before any
structural delimiter (`:`, `{`, `}`; and no NUL byte, on which the C
`while ((ch = getc(fp)))` loop would also stop), it never returns a name:
the loop has no exit, the process never resumes — modelled as `none`. -/
theorem c4_name_reader_abort (s : List Char)
    (h : ∀ c ∈ s, ¬(c = ':' ∨ c = lbrace ∨ c = rbrace ∨ c = Char.ofNat 0)) :
    get_pg_node_name s = none :=
  get_pg_node_name_none s h

/-- Witness for C4 on the delimiter-free stream `ab (x`. -/
theorem c4_witness :
    (∀ c ∈ "ab (x".data, ¬(c = ':' ∨ c = lbrace ∨ c = rbrace ∨ c = Char.ofNat 0)) ∧
    get_pg_node_name "ab (x".data = none :=
  ⟨by decide, c4_name_reader_abort "ab (x".data (by decide)⟩

/-- C5: on every successful parse, the number of allocated tree nodes
equals the number of `{` characters plus the number of `:` characters
consumed (total in the input minus those left unconsumed after the final
`}`), and serializing the returned tree terminates (the default fuel of
`write_dot_script` always suffices because children have strictly larger
arena indices — the structure is acyclic). -/
theorem c5_node_count_and_termination (ec : Bool) (s : List Char) (r : Nat)
    (a : List node_t) (rest : List Char)
    (h : parse_pg_node_tree ec s = some (r, a, rest)) :
    a.length + cntBC rest = cntBC s ∧
      ∀ (se : Bool) (cmap : List (String × node_color_t)),
        (write_dot_script ec se cmap a r).isSome := by
  obtain ⟨st', hr, hs, ha⟩ := parseLoop_some_reaches ec s.length initPState s (r, a, rest) h
  replace hr : Reaches ec initPState s st' (rbrace :: rest) := hr
  replace hs : st'.stack = [r] := hs
  replace ha : st'.arena = a := ha
  have hinv := reaches_inv hr inv_init
  have hcnt := reaches_cnt hr
  have hrb : cntBC (rbrace :: rest) = cntBC rest := by
    simp only [cntBC, if_neg (show ¬ rbrace = lbrace by decide),
      if_neg (show ¬ rbrace = ':' by decide)]
    omega
  constructor
  · have hinit : initPState.arena.length = 0 := rfl
    rw [← ha]
    rw [hrb] at hcnt
    omega
  · intro se cmap
    refine write_dot_script_isSome ec se cmap a r ?_ ?_
    · have hok := hinv.1
      rw [ha] at hok
      exact hok
    · have hstk := hinv.2.1 r (by rw [hs]; exact List.mem_cons_self ..)
      rw [ha] at hstk
      exact hstk

/-- Witness for C5 on `{A :f {B}}`: 3 nodes = two `{` plus one `:`, and
the serializer succeeds. -/
theorem c5_witness :
    parse_pg_node_tree false "\x7bA :f \x7bB\x7d\x7d".data = some (0, c5Arena, []) ∧
    c5Arena.length + cntBC [] = cntBC "\x7bA :f \x7bB\x7d\x7d".data ∧
    (write_dot_script false false [] c5Arena 0).isSome :=
  ⟨by decide,
   (c5_node_count_and_termination false "\x7bA :f \x7bB\x7d\x7d".data 0 c5Arena [] (by decide)).1,
   (c5_node_count_and_termination false "\x7bA :f \x7bB\x7d\x7d".data 0 c5Arena [] (by decide)).2
     false []⟩

/-- C6: in every reachable parser state the `node_suffix` counter equals
the number of nodes created so far, and whenever an iteration creates a
node (the arena grows — only the `{` and `:` transitions do), exactly one
node is appended, its assigned ordinal is the creation rank
(`node_suffix` = arena length at that moment), and it is a Structural or
Item node.  The ordinals assigned at creation are therefore `0, 1, 2, …`:
pairwise distinct and strictly increasing in creation order. -/
theorem c6_ordinals (ec : Bool) (s : List Char) (st' : PState) (s' : List Char)
    (hr : Reaches ec initPState s st' s') :
    st'.node_suffix = st'.arena.length ∧
      ∀ (c : Char) (rest : List Char) (st2 : PState) (rest2 : List Char),
        step1 ec st' c rest = .cont st2 rest2 →
        st'.arena.length < st2.arena.length →
        st2.arena.length = st'.arena.length + 1 ∧
        (getNode st2.arena st'.arena.length).suffix = st'.arena.length ∧
        ((getNode st2.arena st'.arena.length).tag = tag_t.TagNode ∨
          (getNode st2.arena st'.arena.length).tag = tag_t.TagItem) := by
  have hinv := reaches_inv hr inv_init
  refine ⟨hinv.2.2.1, ?_⟩
  intro c rest st2 rest2 h hgrow
  by_cases h1 : c = lbrace
  · unfold step1 at h
    rw [if_pos h1] at h
    split at h
    · exact StepRes.noConfusion h
    · rename_i name rest' heqname
      split at h
      · exact StepRes.noConfusion h
      · rename_i stx hopen
        injection h with ha hb
        subst ha
        obtain ⟨a1, idx, hlen, harena, -⟩ := stepOpen_shape ec st' name stx hopen
        have hl2 : stx.arena.length = st'.arena.length + 1 := by
          rw [harena, List.length_append, List.length_cons, hlen]
          rfl
        refine ⟨hl2, ?_, ?_⟩
        · rw [harena, ← hlen, getNode_append_self]
          show st'.node_suffix = a1.length
          rw [hlen]
          exact hinv.2.2.1
        · rw [harena, ← hlen, getNode_append_self]
          exact Or.inl rfl
  · by_cases h2 : c = rbrace
    · unfold step1 at h
      rw [if_neg h1, if_pos h2] at h
      split at h
      · exact StepRes.noConfusion h
      · exact StepRes.noConfusion h
      · injection h with ha hb
        subst ha
        simp at hgrow
    · by_cases h3 : c = '('
      · unfold step1 at h
        rw [if_neg h1, if_neg h2, if_pos h3] at h
        split at h
        · exact StepRes.noConfusion h
        · rename_i stx hlp
          injection h with ha hb
          subst ha
          have := (stepLParen_shape st' stx hlp).1
          omega
      · by_cases h4 : c = ')'
        · unfold step1 at h
          rw [if_neg h1, if_neg h2, if_neg h3, if_pos h4] at h
          split at h
          · exact StepRes.noConfusion h
          · injection h with ha hb
            subst ha
            simp at hgrow
        · by_cases h5 : c = ':'
          · unfold step1 at h
            rw [if_neg h1, if_neg h2, if_neg h3, if_neg h4, if_pos h5] at h
            split at h
            · exact StepRes.noConfusion h
            · rename_i name rest' heqname
              split at h
              · exact StepRes.noConfusion h
              · rename_i stx hitem
                injection h with ha hb
                subst ha
                obtain ⟨a1, idx, hlen, harena, -⟩ := stepItem_shape st' name stx hitem
                have hl2 : stx.arena.length = st'.arena.length + 1 := by
                  rw [harena, List.length_append, List.length_cons, hlen]
                  rfl
                refine ⟨hl2, ?_, ?_⟩
                · rw [harena, ← hlen, getNode_append_self]
                  show st'.node_suffix = a1.length
                  rw [hlen]
                  exact hinv.2.2.1
                · rw [harena, ← hlen, getNode_append_self]
                  exact Or.inr rfl
          · unfold step1 at h
            rw [if_neg h1, if_neg h2, if_neg h3, if_neg h4, if_neg h5] at h
            injection h with ha hb
            subst ha
            omega

/-- Witness for C6 at the initial state and the `{A` transition. -/
theorem c6_witness :
    initPState.node_suffix = initPState.arena.length ∧
    c6St2.arena.length = initPState.arena.length + 1 ∧
    (getNode c6St2.arena initPState.arena.length).suffix = initPState.arena.length ∧
    ((getNode c6St2.arena initPState.arena.length).tag = tag_t.TagNode ∨
      (getNode c6St2.arena initPState.arena.length).tag = tag_t.TagItem) :=
  ⟨(c6_ordinals false "\x7bA\x7d".data initPState "\x7bA\x7d".data (Reaches.refl ..)).1,
   (c6_ordinals false "\x7bA\x7d".data initPState "\x7bA\x7d".data (Reaches.refl ..)).2
     lbrace "A\x7d".data c6St2 "\x7d".data (by decide) (by decide)⟩

/-- C7: the output decomposes as preamble, then all node-table blocks,
then all edge lines, then the closing brace; the blocks are exactly the
visible blocks along the first pass's breadth-first discovery order and
the edge lines are the pending-edge lists along the second pass's
breadth-first discovery order (all children, in slot order); and the
queue-based discovery order is level-by-level: it lists the whole current
queue first, followed by the order of the concatenation of their child
lists. -/
theorem c7_two_pass_bfs_order :
    (∀ (ec se : Bool) (cmap : List (String × node_color_t)) (arena : List node_t)
        (root : Nat) (out : String), write_dot_script ec se cmap arena root = some out →
      ∃ ord1 ord2,
        bfsOrder (pass1Children arena) (serFuel arena) [root] = some ord1 ∧
        bfsOrder (pass2Children arena) (serFuel arena) [root] = some ord2 ∧
        out = dot_preamble ++
          strJoin ((ord1.filterMap (visibleBlock ec se cmap arena)).map (· ++ "\n")) ++
          strJoin ((ord2.flatMap (fun id => (getNode arena id).edges)).map (· ++ "\n")) ++
          "\x7d\n") ∧
    (∀ (ch : Nat → List Nat) (fuel : Nat) (q out' : List Nat),
        bfsOrder ch fuel q = some out' →
        ∃ out'', bfsOrder ch (fuel - q.length) (q.flatMap ch) = some out'' ∧
          out' = q ++ out'') := by
  constructor
  · intro ec se cmap arena root out h
    unfold write_dot_script at h
    rw [pass1_eq_bfs, pass2_eq_bfs] at h
    cases hb1 : bfsOrder (pass1Children arena) (serFuel arena) [root] with
    | none =>
      rw [hb1] at h
      simp only [Option.map_none'] at h
      exact Option.noConfusion h
    | some ord1 =>
      rw [hb1] at h
      simp only [Option.map_some'] at h
      cases hb2 : bfsOrder (pass2Children arena) (serFuel arena) [root] with
      | none =>
        rw [hb2] at h
        simp only [Option.map_none'] at h
        exact Option.noConfusion h
      | some ord2 =>
        rw [hb2] at h
        simp only [Option.map_some'] at h
        replace h : some (dot_preamble ++
            strJoin ((ord1.filterMap (visibleBlock ec se cmap arena)).map (· ++ "\n")) ++
            strJoin ((ord2.flatMap (fun id => (getNode arena id).edges)).map (· ++ "\n")) ++
            "\x7d\n") = some out := h
        injection h with h'
        exact ⟨ord1, ord2, rfl, rfl, h'.symm⟩
  · intro ch fuel q out' h
    have h2 : bfsOrder ch fuel (q ++ []) = some out' := by
      rw [List.append_nil]
      exact h
    obtain ⟨out'', hbo, hout⟩ := bfsOrder_level ch q [] fuel out' h2
    rw [List.nil_append] at hbo
    exact ⟨out'', hbo, hout⟩

/-- Witness for C7 on `c7Arena`. -/
theorem c7_witness :
    (∃ ord1 ord2,
      bfsOrder (pass1Children c7Arena) (serFuel c7Arena) [0] = some ord1 ∧
      bfsOrder (pass2Children c7Arena) (serFuel c7Arena) [0] = some ord2 ∧
      c7Out = dot_preamble ++
        strJoin ((ord1.filterMap (visibleBlock false false [] c7Arena)).map (· ++ "\n")) ++
        strJoin ((ord2.flatMap (fun id => (getNode c7Arena id).edges)).map (· ++ "\n")) ++
        "\x7d\n") ∧
    (∃ out'', bfsOrder (pass2Children c7Arena)
        (serFuel c7Arena - ([0] : List Nat).length)
        (([0] : List Nat).flatMap (pass2Children c7Arena)) = some out'' ∧
      ([0, 1] : List Nat) = [0] ++ out'') :=
  ⟨c7_two_pass_bfs_order.1 false false [] c7Arena 0 c7Out (by decide),
   c7_two_pass_bfs_order.2 (pass2Children c7Arena) (serFuel c7Arena) [0] [0, 1] (by decide)⟩

/-- C8 counterexample: the label `colnames --` contains the substring
`colnames`, yet `format_colnames` returns it unchanged, so its row is a
single flat row and not a nested sub-table. -/
theorem c8_counterexample :
    containsSub "colnames --" "colnames" = true ∧
    get_dot_node_body 1 "colnames --" =
      "    <tr><td port=\"f1\" border=\"1\">colnames --</td></tr>\n" ∧
    containsSub (get_dot_node_body 1 "colnames --") "<table" = false := by
  refine ⟨by decide, by decide, by decide⟩

/-- C8 amended: every child row whose label contains `colnames` — except
the exact label `colnames --`, which stays a single flat row — is rendered
through `format_colnames`, which opens a nested two-column sub-table; and
the sub-table's value rows are one per space-separated token of the
remainder. -/
theorem c8_amended :
    (∀ (idx : Nat) (name : String), containsSub name "colnames" = true →
      name ≠ "colnames --" →
      get_dot_node_body idx name =
        "    <tr><td port=\"f" ++ toString idx ++ "\" border=\"1\">" ++ format_colnames name ++
          "</td></tr>\n" ∧
      ∃ tailStr, format_colnames name =
        "    \n<table border=\"0\" cellspacing=\"0\"> \n" ++ tailStr) ∧
    (∀ (fuel : Nat) (tmp : List Char),
      (fc_rows fuel tmp).length = (wordsOf fuel tmp).length) := by
  constructor
  · intro idx name hc hne
    constructor
    · simp only [get_dot_node_body]
      rw [if_pos hc]
    · unfold format_colnames
      rw [if_neg hne]
      exact ⟨_, rfl⟩
  · exact fc_rows_words

/-- Witness for C8 on the label `colnames (a b)`. -/
theorem c8_witness :
    containsSub "colnames (a b)" "colnames" = true ∧
    ("colnames (a b)" : String) ≠ "colnames --" ∧
    (get_dot_node_body 1 "colnames (a b)" =
      "    <tr><td port=\"f" ++ toString 1 ++ "\" border=\"1\">" ++
        format_colnames "colnames (a b)" ++ "</td></tr>\n" ∧
     ∃ tailStr, format_colnames "colnames (a b)" =
        "    \n<table border=\"0\" cellspacing=\"0\"> \n" ++ tailStr) ∧
    (fc_rows ("a b)".data).length "a b)".data).length =
      (wordsOf ("a b)".data).length "a b)".data).length :=
  ⟨by decide, by decide,
   c8_amended.1 1 "colnames (a b)" (by decide) (by decide),
   c8_amended.2 ("a b)".data).length "a b)".data⟩

/-- C9: a name returned by the name reader is the raw read text trimmed
and then character-replaced (`"` to space, `<`/`>` to `-`), so it contains
none of `"`, `<`, `>`; consequently every node name in a parsed arena —
every label the serializer renders — is free of those characters. -/
theorem c9_sanitized_names :
    (∀ (s : List Char) (name : String) (rest : List Char),
        get_pg_node_name s = some (name, rest) →
        (∃ raw, pg_name_raw s.length s [] = some (raw, rest) ∧ name = pg_name_post raw) ∧
        ∀ c ∈ name.data, ¬ badChar c) ∧
    (∀ (ec : Bool) (s : List Char) (r : Nat) (a : List node_t) (rest : List Char),
        parse_pg_node_tree ec s = some (r, a, rest) →
        ∀ i, ∀ c ∈ (getNode a i).name.data, ¬ badChar c) := by
  constructor
  · intro s name rest h
    exact ⟨get_pg_node_name_some_inv s name rest h, get_pg_node_name_good s name rest h⟩
  · intro ec s r a rest h i c hc
    obtain ⟨st', hr, hs, ha⟩ := parseLoop_some_reaches ec s.length initPState s (r, a, rest) h
    replace ha : st'.arena = a := ha
    have hinv := reaches_inv hr inv_init
    exact hinv.2.2.2 i c (by rw [ha]; exact hc)

/-- Witness for C9 on the raw text `a"b<c> ` (delimited by `:`). -/
theorem c9_witness :
    get_pg_node_name "a\"b<c> :x".data = some ("a b-c-", [':', 'x']) ∧ ¬ badChar 'a' :=
  ⟨by decide,
   (c9_sanitized_names.1 "a\"b<c> :x".data "a b-c-" [':', 'x'] (by decide)).2 'a' (by decide)⟩

theorem filterMap_congr_c {α β : Type} (f g : α → Option β) (l : List α)
    (h : ∀ x ∈ l, f x = g x) : l.filterMap f = l.filterMap g := by
  induction l with
  | nil => rfl
  | cons x xs ih =>
    rw [List.filterMap_cons, List.filterMap_cons, h x (List.mem_cons_self ..),
      ih (fun y hy => h y (List.mem_cons_of_mem x hy))]

/-- C10: with empty-field skipping enabled, a child contributes a row
exactly when its label does *not* contain `--` anywhere as a substring
(`name_contains_empty` is a substring test, not an equality test); in
particular the row labelled `expr --` — which is not exactly `--` — is
omitted entirely, while with skipping disabled it appears. -/
theorem c10_skip_empty_rows :
    (∀ (se : Bool) (arena : List node_t) (elems : List Nat),
      blockBody se arena elems = strJoin (elems.filterMap (fun cid =>
        if se && name_contains_empty (getNode arena cid).name then none
        else some (get_dot_node_body (getNode arena cid).index (getNode arena cid).name)))) ∧
    name_contains_empty "expr --" = true ∧
    ("expr --" : String) ≠ "--" ∧
    blockBody true c10Arena [0] = "" ∧
    blockBody false c10Arena [0] = get_dot_node_body 1 "expr --" := by
  refine ⟨?_, by decide, by decide, by decide, by decide⟩
  intro se arena elems
  rw [blockBody_eq]
  congr 1
  apply filterMap_congr_c
  intro cid hcid
  unfold rowOpt
  cases se with
  | false => simp
  | true =>
    cases hx : name_contains_empty (getNode arena cid).name with
    | false => simp [hx]
    | true => simp [hx]

end PgNode2Graph
